import Mathlib

/-!
Shallow embedding of the `benchman` crate (`src/lib.rs`), a RAII-style
one-shot benchmark tool, together with proofs about its sample store
(`BenchResult`), its registry (`ResultSet`), the session (`BenchMan`),
the scoped timer (`Stopwatch`) and the report rendering.

Modelling conventions:
* `std::time::Duration` is modelled as an exact nanosecond count (`Nat`).
  Rust's `Duration` addition and division by a `u32` are exact at nanosecond
  resolution (`Duration::checked_div` floors the total nanosecond count), so
  `+` is `Nat.add` and `/` is `Nat.div`.  The additive-overflow panic of
  `Duration` (at 2^64 seconds) is outside the modelled range.
* `usize` values (lengths) are modelled as `Nat`; the cast `n as u32` in
  `BenchResult::average` is modelled as `n % 2^32`.
* panicking paths (division by zero, failed `assert!`, out-of-bounds
  indexing, `Option::unwrap` on `None`) are modelled by `Option.none`.
* the `f64` arithmetic in `BenchResult::percentile`
  (`p as f64 / 100.`, `* n as f64`, `f64::ceil`) is modelled exactly by
  IEEE-754 binary64 round-to-nearest, ties-to-even, on positive values,
  represented below as dyadic rationals with a 53-bit significand
  (`F64`, `round53`).  All values arising there are finite, positive and
  normal, so neither overflow, underflow, subnormals nor NaN can occur.
-/

namespace Benchman

/-- A finite nonnegative IEEE-754 binary64 value, as a dyadic rational
`m * 2^e` with `m < 2^53` (after rounding). -/
structure F64 where
  m : Nat
  e : Int
  deriving DecidableEq, Repr

/-- The rational value of an `F64`. -/
def F64.val (x : F64) : ℚ := (x.m : ℚ) * (2 : ℚ) ^ x.e

/-- Round `num / den` to the nearest integer, ties to even. -/
def rne (num den : Nat) : Nat :=
  let q := num / den
  let r := num % den
  if den < 2 * r then q + 1
  else if 2 * r < den then q
  else if q % 2 = 0 then q else q + 1

/-- Smallest `k` (within `fuel`) with `2^52 * b ≤ a * 2^k`. -/
def upSteps : Nat → Nat → Nat → Nat
  | 0, _, _ => 0
  | fuel + 1, a, b => if 2 ^ 52 * b ≤ a then 0 else upSteps fuel (2 * a) b + 1

/-- Smallest `k` (within `fuel`) with `a < 2^53 * b * 2^k`. -/
def downSteps : Nat → Nat → Nat → Nat
  | 0, _, _ => 0
  | fuel + 1, a, b => if a < 2 ^ 53 * b then 0 else downSteps fuel a (2 * b) + 1

/-- Round the nonnegative rational `a / b` to the nearest binary64 value
(round to nearest, ties to even). -/
def round53 (a b : Nat) : F64 :=
  if a = 0 ∨ b = 0 then ⟨0, 0⟩
  else if 2 ^ 52 * b ≤ a then
    let k := downSteps a a b
    ⟨rne a (b * 2 ^ k), (k : Int)⟩
  else
    let k := upSteps (53 + b) a b
    ⟨rne (a * 2 ^ k) b, -(k : Int)⟩

/-- `n as f64` (conversion of an unsigned integer to binary64). -/
def f64ofNat (n : Nat) : F64 := round53 n 1

/-- Binary64 multiplication (correctly rounded product). -/
def F64.mul (x y : F64) : F64 :=
  let r := round53 (x.m * y.m) 1
  ⟨r.m, r.e + x.e + y.e⟩

/-- Binary64 division (correctly rounded quotient). -/
def F64.div (x y : F64) : F64 :=
  let r := round53 x.m y.m
  ⟨r.m, r.e + x.e - y.e⟩

/-- `f64::ceil` followed by the cast to `usize`, for nonnegative values
(the values reached in `percentile` are nonnegative, and in-range
whenever they are subsequently used to index). -/
def F64.ceilNat (x : F64) : Nat :=
  match x.e with
  | .ofNat k => x.m * 2 ^ k
  | .negSucc k => (x.m + 2 ^ (k + 1) - 1) / 2 ^ (k + 1)

/-- The sample store: `struct BenchResult { list: Vec<Duration> }`. -/
structure BenchResult where
  list : List Nat
  deriving DecidableEq, Repr

/-- `BenchResult::new`. -/
def BenchResult.new : BenchResult := ⟨[]⟩

/-- `BenchResult::n` — number of recorded samples. -/
def BenchResult.n (br : BenchResult) : Nat := br.list.length

/-- `BenchResult::add_result` — `self.list.push(du)`. -/
def BenchResult.add_result (br : BenchResult) (du : Nat) : BenchResult :=
  ⟨br.list ++ [du]⟩

/-- `BenchResult::average`: sums the durations and divides by `n as u32`.
Division of a `Duration` by zero panics (`none`); the cast of the `usize`
length to `u32` is `% 2^32`. -/
def BenchResult.average (br : BenchResult) : Option Nat :=
  let n := br.list.length % 2 ^ 32
  if n = 0 then none else some (br.list.sum / n)

/-- The index `ceil(p as f64 / 100. * n as f64) as usize` computed by
`BenchResult::percentile` in binary64 arithmetic. -/
def percIndex (p n : Nat) : Nat :=
  (F64.mul (F64.div (f64ofNat p) (f64ofNat 100)) (f64ofNat n)).ceilNat

/-- `BenchResult::percentile`: asserts `p > 0`, sorts a copy of the list
ascending, and indexes it at `i - 1` where `i = ceil(p/100 * n)` is computed
in `f64` arithmetic.  A failed assertion (`p = 0`), the underflow of `i - 1`
at `i = 0`, and an out-of-bounds index all panic (`none`). -/
def BenchResult.percentile (br : BenchResult) (p : Nat) : Option Nat :=
  if p = 0 then none
  else
    let sorted := List.insertionSort (· ≤ ·) br.list
    let i := percIndex p br.list.length
    if i = 0 then none else sorted[i - 1]?

/-! ### Facts about round-to-nearest-even integer rounding -/

theorem rne_le (num den : Nat) (h : 0 < den) : 2 * den * rne num den ≤ 2 * num + den := by
  have hm := Nat.div_add_mod num den
  have hr : num % den < den := Nat.mod_lt _ h
  simp only [rne]
  split
  · rename_i hlt
    have : 2 * den * (num / den + 1) = 2 * (den * (num / den)) + 2 * den := by ring
    rw [this]
    have h2 : 2 * num + den = 2 * (den * (num / den)) + 2 * (num % den) + den := by omega
    omega
  · split
    · rename_i h1 h2
      have : 2 * den * (num / den) = 2 * (den * (num / den)) := by ring
      omega
    · split
      · rename_i h1 h2 h3
        have : 2 * den * (num / den) = 2 * (den * (num / den)) := by ring
        omega
      · rename_i h1 h2 h3
        have heq : 2 * (num % den) = den := by omega
        have : 2 * den * (num / den + 1) = 2 * (den * (num / den)) + 2 * den := by ring
        omega

theorem rne_ge (num den : Nat) (h : 0 < den) : 2 * num ≤ 2 * den * rne num den + den := by
  have hm := Nat.div_add_mod num den
  have hr : num % den < den := Nat.mod_lt _ h
  simp only [rne]
  split
  · rename_i hlt
    have : 2 * den * (num / den + 1) = 2 * (den * (num / den)) + 2 * den := by ring
    omega
  · split
    · rename_i h1 h2
      have : 2 * den * (num / den) = 2 * (den * (num / den)) := by ring
      omega
    · split
      · rename_i h1 h2 h3
        have : 2 * den * (num / den) = 2 * (den * (num / den)) := by ring
        omega
      · rename_i h1 h2 h3
        have : 2 * den * (num / den + 1) = 2 * (den * (num / den)) + 2 * den := by ring
        omega

theorem rne_cases (num den : Nat) :
    rne num den = num / den ∨ rne num den = num / den + 1 := by
  simp only [rne]
  split
  · right; rfl
  · split
    · left; rfl
    · split
      · left; rfl
      · right; rfl

theorem rne_of_dvd (num den : Nat) (h : 0 < den) (hd : den ∣ num) :
    rne num den = num / den := by
  have hr : num % den = 0 := by
    obtain ⟨c, rfl⟩ := hd
    exact Nat.mul_mod_right den c
  simp only [rne]
  rw [hr]
  have h1 : ¬ den < 2 * 0 := by omega
  rw [if_neg h1, if_pos (by omega)]

/-- `rne` is well defined on the rational `num/den`: equal fractions round
to equal integers. -/
theorem rne_congr (n1 d1 n2 d2 : Nat) (hd1 : 0 < d1) (hd2 : 0 < d2)
    (heq : n1 * d2 = n2 * d1) : rne n1 d1 = rne n2 d2 := by
  have hm1 := Nat.div_add_mod n1 d1
  have hm2 := Nat.div_add_mod n2 d2
  have hr1 : n1 % d1 < d1 := Nat.mod_lt _ hd1
  have hr2 : n2 % d2 < d2 := Nat.mod_lt _ hd2
  have e1 : n1 * d2 = d1 * d2 * (n1 / d1) + (n1 % d1) * d2 := by
    calc n1 * d2 = (d1 * (n1 / d1) + n1 % d1) * d2 := by rw [hm1]
      _ = d1 * d2 * (n1 / d1) + (n1 % d1) * d2 := by ring
  have e2 : n2 * d1 = d1 * d2 * (n2 / d2) + (n2 % d2) * d1 := by
    calc n2 * d1 = (d2 * (n2 / d2) + n2 % d2) * d1 := by rw [hm2]
      _ = d1 * d2 * (n2 / d2) + (n2 % d2) * d1 := by ring
  have hb1 : (n1 % d1) * d2 < d1 * d2 := Nat.mul_lt_mul_of_lt_of_le hr1 (le_refl d2) hd2
  have hb2 : (n2 % d2) * d1 < d1 * d2 := by
    calc (n2 % d2) * d1 < d2 * d1 := Nat.mul_lt_mul_of_lt_of_le hr2 (le_refl d1) hd1
      _ = d1 * d2 := by ring
  have hqq : n1 / d1 = n2 / d2 := by
    by_contra hne
    rcases Nat.lt_or_ge (n1 / d1) (n2 / d2) with h | h
    · have hstep : d1 * d2 * (n1 / d1) + d1 * d2 ≤ d1 * d2 * (n2 / d2) := by
        have : d1 * d2 * (n1 / d1) + d1 * d2 = d1 * d2 * (n1 / d1 + 1) := by ring
        rw [this]
        exact Nat.mul_le_mul_left _ h
      omega
    · have h2 : n2 / d2 < n1 / d1 := by omega
      have hstep : d1 * d2 * (n2 / d2) + d1 * d2 ≤ d1 * d2 * (n1 / d1) := by
        have : d1 * d2 * (n2 / d2) + d1 * d2 = d1 * d2 * (n2 / d2 + 1) := by ring
        rw [this]
        exact Nat.mul_le_mul_left _ h2
      omega
  have hrr : (n1 % d1) * d2 = (n2 % d2) * d1 := by
    rw [hqq] at e1
    omega
  have c1 : d1 < 2 * (n1 % d1) ↔ d2 < 2 * (n2 % d2) := by
    constructor
    · intro h
      have h2 : d1 * d2 < 2 * (n1 % d1) * d2 := Nat.mul_lt_mul_of_lt_of_le h (le_refl d2) hd2
      have h3 : 2 * (n1 % d1) * d2 = 2 * ((n1 % d1) * d2) := by ring
      have h4 : d1 * d2 < 2 * ((n2 % d2) * d1) := by omega
      have h5 : 2 * ((n2 % d2) * d1) = (2 * (n2 % d2)) * d1 := by ring
      have h6 : d2 * d1 < (2 * (n2 % d2)) * d1 := by
        have : d2 * d1 = d1 * d2 := by ring
        omega
      exact Nat.lt_of_mul_lt_mul_right h6
    · intro h
      have h2 : d2 * d1 < 2 * (n2 % d2) * d1 := Nat.mul_lt_mul_of_lt_of_le h (le_refl d1) hd1
      have h3 : 2 * (n2 % d2) * d1 = 2 * ((n2 % d2) * d1) := by ring
      have h4 : d2 * d1 < 2 * ((n1 % d1) * d2) := by omega
      have h5 : 2 * ((n1 % d1) * d2) = (2 * (n1 % d1)) * d2 := by ring
      have h6 : d1 * d2 < (2 * (n1 % d1)) * d2 := by
        have : d1 * d2 = d2 * d1 := by ring
        omega
      exact Nat.lt_of_mul_lt_mul_right h6
  have ctie : 2 * (n1 % d1) = d1 ↔ 2 * (n2 % d2) = d2 := by
    constructor
    · intro h
      have h2 : (2 * (n1 % d1)) * d2 = d1 * d2 := by rw [h]
      have h3 : (2 * (n1 % d1)) * d2 = 2 * ((n1 % d1) * d2) := by ring
      have h4 : (2 * (n2 % d2)) * d1 = d2 * d1 := by
        have h5 : (2 * (n2 % d2)) * d1 = 2 * ((n2 % d2) * d1) := by ring
        have h6 : d2 * d1 = d1 * d2 := by ring
        omega
      exact Nat.eq_of_mul_eq_mul_right hd1 h4
    · intro h
      have h2 : (2 * (n2 % d2)) * d1 = d2 * d1 := by rw [h]
      have h3 : (2 * (n2 % d2)) * d1 = 2 * ((n2 % d2) * d1) := by ring
      have h4 : (2 * (n1 % d1)) * d2 = d1 * d2 := by
        have h5 : (2 * (n1 % d1)) * d2 = 2 * ((n1 % d1) * d2) := by ring
        have h6 : d2 * d1 = d1 * d2 := by ring
        omega
      exact Nat.eq_of_mul_eq_mul_right hd2 h4
  simp only [rne]
  rw [hqq]
  rcases Nat.lt_trichotomy d1 (2 * (n1 % d1)) with h | h | h
  · rw [if_pos h, if_pos (c1.mp h)]
  · have h2 : 2 * (n2 % d2) = d2 := ctie.mp h.symm
    have hx1 : ¬ d1 < 2 * (n1 % d1) := by omega
    have hx2 : ¬ 2 * (n1 % d1) < d1 := by omega
    have hx3 : ¬ d2 < 2 * (n2 % d2) := by omega
    have hx4 : ¬ 2 * (n2 % d2) < d2 := by omega
    rw [if_neg hx1, if_neg hx2, if_neg hx3, if_neg hx4]
  · have h2 : ¬ 2 * (n2 % d2) = d2 := fun hx => by
      have := ctie.mpr hx
      omega
    have h3 : ¬ d2 < 2 * (n2 % d2) := fun hx => by
      have := c1.mpr hx
      omega
    have hx1 : ¬ d1 < 2 * (n1 % d1) := by omega
    have hx4 : 2 * (n2 % d2) < d2 := by omega
    rw [if_neg hx1, if_pos h, if_neg h3, if_pos hx4]

/-- Round-to-nearest-even is monotone as a function of the rational `num/den`. -/
theorem rne_rat_mono (n1 d1 n2 d2 : Nat) (hd1 : 0 < d1) (hd2 : 0 < d2)
    (hle : n1 * d2 ≤ n2 * d1) : rne n1 d1 ≤ rne n2 d2 := by
  rcases Nat.eq_or_lt_of_le hle with heq | hlt
  · exact le_of_eq (rne_congr n1 d1 n2 d2 hd1 hd2 heq)
  · by_contra hc
    push_neg at hc
    have hA := rne_le n1 d1 hd1
    have hC := rne_ge n2 d2 hd2
    have hA2 : 2 * (d1 * d2) * rne n1 d1 ≤ 2 * (n1 * d2) + d1 * d2 := by
      have h0 : (2 * d1 * rne n1 d1) * d2 ≤ (2 * n1 + d1) * d2 := Nat.mul_le_mul_right _ hA
      calc 2 * (d1 * d2) * rne n1 d1 = (2 * d1 * rne n1 d1) * d2 := by ring
        _ ≤ (2 * n1 + d1) * d2 := h0
        _ = 2 * (n1 * d2) + d1 * d2 := by ring
    have hC2 : 2 * (n2 * d1) ≤ 2 * (d1 * d2) * rne n2 d2 + d1 * d2 := by
      have h0 : (2 * n2) * d1 ≤ (2 * d2 * rne n2 d2 + d2) * d1 := Nat.mul_le_mul_right _ hC
      calc 2 * (n2 * d1) = (2 * n2) * d1 := by ring
        _ ≤ (2 * d2 * rne n2 d2 + d2) * d1 := h0
        _ = 2 * (d1 * d2) * rne n2 d2 + d1 * d2 := by ring
    have hmul : 2 * (d1 * d2) * (rne n2 d2 + 1) ≤ 2 * (d1 * d2) * rne n1 d1 :=
      Nat.mul_le_mul_left _ (by omega)
    have hexp : 2 * (d1 * d2) * (rne n2 d2 + 1)
        = 2 * (d1 * d2) * rne n2 d2 + 2 * (d1 * d2) := by ring
    omega

/-! ### Normalisation brackets for `round53` -/

theorem upSteps_spec : ∀ (fuel a b : Nat), 0 < a → 0 < b → a < 2 ^ 52 * b →
    2 ^ 52 * b ≤ a * 2 ^ fuel →
    2 ^ 52 * b ≤ a * 2 ^ upSteps fuel a b ∧ a * 2 ^ upSteps fuel a b < 2 ^ 53 * b := by
  intro fuel
  induction fuel with
  | zero =>
    intro a b ha hb hlt hfuel
    simp only [pow_zero, Nat.mul_one] at hfuel
    omega
  | succ fuel ih =>
    intro a b ha hb hlt hfuel
    rw [upSteps, if_neg (by omega)]
    by_cases hcase : 2 * a < 2 ^ 52 * b
    · have hfuel2 : 2 ^ 52 * b ≤ 2 * a * 2 ^ fuel := by
        have : 2 * a * 2 ^ fuel = a * 2 ^ (fuel + 1) := by ring
        omega
      obtain ⟨ih1, ih2⟩ := ih (2 * a) b (by omega) hb hcase hfuel2
      have hup : 2 * a * 2 ^ upSteps fuel (2 * a) b = a * 2 ^ (upSteps fuel (2 * a) b + 1) := by
        ring
      constructor
      · omega
      · omega
    · have h0 : upSteps fuel (2 * a) b = 0 := by
        cases fuel with
        | zero => rfl
        | succ fuel => rw [upSteps, if_pos (by omega)]
      rw [h0]
      constructor
      · have : a * 2 ^ (0 + 1) = 2 * a := by ring
        omega
      · have : a * 2 ^ (0 + 1) = 2 * a := by ring
        omega

theorem downSteps_spec : ∀ (fuel a b : Nat), 0 < b → 2 ^ 52 * b ≤ a →
    a < 2 ^ 53 * b * 2 ^ fuel →
    2 ^ 52 * (b * 2 ^ downSteps fuel a b) ≤ a ∧ a < 2 ^ 53 * (b * 2 ^ downSteps fuel a b) := by
  intro fuel
  induction fuel with
  | zero =>
    intro a b hb hge hfuel
    simp only [pow_zero, Nat.mul_one] at hfuel
    rw [downSteps]
    simp only [pow_zero, Nat.mul_one]
    omega
  | succ fuel ih =>
    intro a b hb hge hfuel
    rw [downSteps]
    by_cases hcase : a < 2 ^ 53 * b
    · rw [if_pos hcase]
      simp only [pow_zero, Nat.mul_one]
      omega
    · rw [if_neg hcase]
      have hge2 : 2 ^ 52 * (2 * b) ≤ a := by
        have : 2 ^ 52 * (2 * b) = 2 ^ 53 * b := by ring
        omega
      have hfuel2 : a < 2 ^ 53 * (2 * b) * 2 ^ fuel := by
        have : 2 ^ 53 * (2 * b) * 2 ^ fuel = 2 ^ 53 * b * 2 ^ (fuel + 1) := by ring
        omega
      obtain ⟨ih1, ih2⟩ := ih a (2 * b) (by omega) hge2 hfuel2
      have e1 : 2 * b * 2 ^ downSteps fuel a (2 * b) = b * 2 ^ (downSteps fuel a (2 * b) + 1) := by
        ring
      constructor
      · have : 2 ^ 52 * (2 * b * 2 ^ downSteps fuel a (2 * b))
            = 2 ^ 52 * (b * 2 ^ (downSteps fuel a (2 * b) + 1)) := by rw [e1]
        omega
      · have : 2 ^ 53 * (2 * b * 2 ^ downSteps fuel a (2 * b))
            = 2 ^ 53 * (b * 2 ^ (downSteps fuel a (2 * b) + 1)) := by rw [e1]
        omega

/-- Bracket for `round53`: on positive input it rounds a scaled fraction
`num/den ∈ [2^52, 2^53)` and records the scaling exponent. -/
theorem round53_spec (a b : Nat) (ha : 0 < a) (hb : 0 < b) :
    ∃ (num den : Nat) (E : Int), 0 < num ∧ 0 < den ∧
      round53 a b = ⟨rne num den, E⟩ ∧
      2 ^ 52 * den ≤ num ∧ num < 2 ^ 53 * den ∧
      ((num : ℚ) / den) * (2 : ℚ) ^ E = (a : ℚ) / b := by
  rw [round53, if_neg (by omega)]
  by_cases hcase : 2 ^ 52 * b ≤ a
  · rw [if_pos hcase]
    have hfuel : a < 2 ^ 53 * b * 2 ^ a := by
      have h1 : a < 2 ^ a := Nat.lt_two_pow a
      have h2 : 2 ^ a ≤ 2 ^ 53 * b * 2 ^ a :=
        Nat.le_mul_of_pos_left _ (by positivity)
      omega
    obtain ⟨h1, h2⟩ := downSteps_spec a a b hb hcase hfuel
    refine ⟨a, b * 2 ^ downSteps a a b, (downSteps a a b : Int), ha, by positivity, rfl,
      h1, h2, ?_⟩
    have hbpos : (0 : ℚ) < (b : ℚ) := by exact_mod_cast hb
    have hppos : (0 : ℚ) < (2 : ℚ) ^ downSteps a a b := by positivity
    rw [zpow_natCast]
    push_cast
    field_simp
    ring
  · rw [if_neg hcase]
    have hfuel : 2 ^ 52 * b ≤ a * 2 ^ (53 + b) := by
      have h1 : b < 2 ^ b := Nat.lt_two_pow b
      have h2 : 2 ^ 52 * b ≤ 2 ^ 52 * 2 ^ b := Nat.mul_le_mul_left _ (by omega)
      have h3 : (2 : Nat) ^ 52 * 2 ^ b ≤ 2 ^ (53 + b) := by
        have : (2 : Nat) ^ 52 * 2 ^ b ≤ 2 * (2 ^ 52 * 2 ^ b) := by omega
        have he : 2 * (2 ^ 52 * 2 ^ b) = 2 ^ (53 + b) := by
          rw [pow_add]
          ring
        omega
      have h4 : a * 2 ^ (53 + b) ≥ 1 * 2 ^ (53 + b) := Nat.mul_le_mul_right _ (by omega)
      omega
    obtain ⟨h1, h2⟩ := upSteps_spec (53 + b) a b ha hb (by omega) hfuel
    refine ⟨a * 2 ^ upSteps (53 + b) a b, b, -(upSteps (53 + b) a b : Int), by positivity,
      hb, rfl, ?_, ?_, ?_⟩
    · have : 2 ^ 52 * b ≤ a * 2 ^ upSteps (53 + b) a b := h1
      calc 2 ^ 52 * b ≤ a * 2 ^ upSteps (53 + b) a b := h1
        _ ≤ a * 2 ^ upSteps (53 + b) a b := le_refl _
    · omega
    · have hbpos : (0 : ℚ) < (b : ℚ) := by exact_mod_cast hb
      have hppos : (0 : ℚ) < (2 : ℚ) ^ upSteps (53 + b) a b := by positivity
      rw [zpow_neg, zpow_natCast]
      push_cast
      field_simp
      ring

/-! ### Value-level facts about `round53` -/

theorem F64.val_mk (m : Nat) (e : Int) : (F64.mk m e).val = (m : ℚ) * (2 : ℚ) ^ e := rfl

theorem rne_bracket (num den : Nat) (hden : 0 < den)
    (h1 : 2 ^ 52 * den ≤ num) (h2 : num < 2 ^ 53 * den) :
    2 ^ 52 ≤ rne num den ∧ rne num den ≤ 2 ^ 53 := by
  have hq1 : 2 ^ 52 ≤ num / den := (Nat.le_div_iff_mul_le hden).mpr h1
  have hq2 : num / den < 2 ^ 53 := (Nat.div_lt_iff_lt_mul hden).mpr h2
  rcases rne_cases num den with h | h <;> omega

theorem rne_le_q (num den : Nat) (hden : 0 < den) :
    (rne num den : ℚ) ≤ (num : ℚ) / den + 1 / 2 := by
  have h := rne_le num den hden
  have hdq : (0 : ℚ) < (den : ℚ) := by exact_mod_cast hden
  have hcast : (2 : ℚ) * den * rne num den ≤ 2 * num + den := by exact_mod_cast h
  rw [div_add_div _ _ (ne_of_gt hdq) (by norm_num : (2:ℚ) ≠ 0)]
  rw [le_div_iff₀ (by positivity)]
  nlinarith [hcast]

theorem rne_ge_q (num den : Nat) (hden : 0 < den) :
    (num : ℚ) / den - 1 / 2 ≤ (rne num den : ℚ) := by
  have h := rne_ge num den hden
  have hdq : (0 : ℚ) < (den : ℚ) := by exact_mod_cast hden
  have hcast : (2 : ℚ) * num ≤ 2 * den * rne num den + den := by exact_mod_cast h
  rw [sub_le_iff_le_add, div_le_iff₀ hdq]
  nlinarith [hcast]

theorem round53_le (a b : Nat) (ha : 0 < a) (hb : 0 < b) :
    (round53 a b).val ≤ ((a : ℚ) / b) * (1 + 1 / 2 ^ 53) := by
  obtain ⟨num, den, E, hnum, hden, heq, hb1, hb2, hval⟩ := round53_spec a b ha hb
  rw [heq, F64.val_mk]
  have hdq : (0 : ℚ) < (den : ℚ) := by exact_mod_cast hden
  have hq0 : (2 : ℚ) ^ 52 ≤ (num : ℚ) / den := by
    rw [le_div_iff₀ hdq]
    exact_mod_cast hb1
  have hr1 : (rne num den : ℚ) ≤ (num : ℚ) / den + 1 / 2 := rne_le_q num den hden
  have hr2 : (rne num den : ℚ) ≤ ((num : ℚ) / den) * (1 + 1 / 2 ^ 53) := by
    have hhalf : (1 : ℚ) / 2 ≤ ((num : ℚ) / den) / 2 ^ 53 := by
      rw [div_le_div_iff₀ (by norm_num) (by norm_num)]
      nlinarith [hq0]
    nlinarith [hhalf, hr1]
  calc (rne num den : ℚ) * (2 : ℚ) ^ E
      ≤ (((num : ℚ) / den) * (1 + 1 / 2 ^ 53)) * (2 : ℚ) ^ E := by
        exact mul_le_mul_of_nonneg_right hr2 (le_of_lt (zpow_pos (by norm_num) E))
    _ = (((num : ℚ) / den) * (2 : ℚ) ^ E) * (1 + 1 / 2 ^ 53) := by ring
    _ = ((a : ℚ) / b) * (1 + 1 / 2 ^ 53) := by rw [hval]

theorem round53_ge (a b : Nat) (ha : 0 < a) (hb : 0 < b) :
    ((a : ℚ) / b) * (1 - 1 / 2 ^ 53) ≤ (round53 a b).val := by
  obtain ⟨num, den, E, hnum, hden, heq, hb1, hb2, hval⟩ := round53_spec a b ha hb
  rw [heq, F64.val_mk]
  have hdq : (0 : ℚ) < (den : ℚ) := by exact_mod_cast hden
  have hq0 : (2 : ℚ) ^ 52 ≤ (num : ℚ) / den := by
    rw [le_div_iff₀ hdq]
    exact_mod_cast hb1
  have hr1 : (num : ℚ) / den - 1 / 2 ≤ (rne num den : ℚ) := rne_ge_q num den hden
  have hr2 : ((num : ℚ) / den) * (1 - 1 / 2 ^ 53) ≤ (rne num den : ℚ) := by
    have hhalf : (1 : ℚ) / 2 ≤ ((num : ℚ) / den) / 2 ^ 53 := by
      rw [div_le_div_iff₀ (by norm_num) (by norm_num)]
      nlinarith [hq0]
    nlinarith [hhalf, hr1]
  calc ((a : ℚ) / b) * (1 - 1 / 2 ^ 53)
      = (((num : ℚ) / den) * (2 : ℚ) ^ E) * (1 - 1 / 2 ^ 53) := by rw [hval]
    _ = (((num : ℚ) / den) * (1 - 1 / 2 ^ 53)) * (2 : ℚ) ^ E := by ring
    _ ≤ (rne num den : ℚ) * (2 : ℚ) ^ E := by
        exact mul_le_mul_of_nonneg_right hr2 (le_of_lt (zpow_pos (by norm_num) E))

theorem round53_pos (a b : Nat) (ha : 0 < a) (hb : 0 < b) : 0 < (round53 a b).val := by
  have h := round53_ge a b ha hb
  have haq : (0 : ℚ) < (a : ℚ) := by exact_mod_cast ha
  have hbq : (0 : ℚ) < (b : ℚ) := by exact_mod_cast hb
  have : (0 : ℚ) < ((a : ℚ) / b) * (1 - 1 / 2 ^ 53) := by positivity
  linarith

theorem round53_m_pos (a b : Nat) (ha : 0 < a) (hb : 0 < b) : 0 < (round53 a b).m := by
  obtain ⟨num, den, E, hnum, hden, heq, hb1, hb2, hval⟩ := round53_spec a b ha hb
  rw [heq]
  obtain ⟨h1, _⟩ := rne_bracket num den hden hb1 hb2
  simp only []
  omega

/-- If a positive value lies in the binades `[2^52·2^E, 2^53·2^E)` and
`[2^52·2^F, 2^53·2^F)` then `E = F`. -/
theorem binade_eq (v : ℚ) (E F : Int)
    (h1 : (2 : ℚ) ^ 52 * (2 : ℚ) ^ E ≤ v) (h2 : v < 2 ^ 53 * (2 : ℚ) ^ E)
    (h3 : (2 : ℚ) ^ 52 * (2 : ℚ) ^ F ≤ v) (h4 : v < 2 ^ 53 * (2 : ℚ) ^ F) : E = F := by
  by_contra hne
  rcases Int.lt_or_gt_of_ne hne with h | h
  · have hstep : (2 : ℚ) ^ (E + 1) ≤ (2 : ℚ) ^ F :=
      zpow_le_zpow_right₀ (by norm_num) (by omega)
    have he : (2 : ℚ) ^ 53 * (2 : ℚ) ^ E = 2 ^ 52 * (2 : ℚ) ^ (E + 1) := by
      rw [zpow_add_one₀ (by norm_num : (2:ℚ) ≠ 0)]
      ring
    have : v < v := by
      calc v < 2 ^ 53 * (2 : ℚ) ^ E := h2
        _ = 2 ^ 52 * (2 : ℚ) ^ (E + 1) := he
        _ ≤ 2 ^ 52 * (2 : ℚ) ^ F := by
            exact mul_le_mul_of_nonneg_left hstep (by norm_num)
        _ ≤ v := h3
    exact lt_irrefl v this
  · have hstep : (2 : ℚ) ^ (F + 1) ≤ (2 : ℚ) ^ E :=
      zpow_le_zpow_right₀ (by norm_num) (by omega)
    have he : (2 : ℚ) ^ 53 * (2 : ℚ) ^ F = 2 ^ 52 * (2 : ℚ) ^ (F + 1) := by
      rw [zpow_add_one₀ (by norm_num : (2:ℚ) ≠ 0)]
      ring
    have : v < v := by
      calc v < 2 ^ 53 * (2 : ℚ) ^ F := h4
        _ = 2 ^ 52 * (2 : ℚ) ^ (F + 1) := he
        _ ≤ 2 ^ 52 * (2 : ℚ) ^ E := by
            exact mul_le_mul_of_nonneg_left hstep (by norm_num)
        _ ≤ v := h1
    exact lt_irrefl v this

/-- The fraction bracket bounds transfer to the value. -/
theorem round53_binade (num den : Nat) (E : Int) (hden : 0 < den)
    (hb1 : 2 ^ 52 * den ≤ num) (hb2 : num < 2 ^ 53 * den) :
    (2 : ℚ) ^ 52 * (2 : ℚ) ^ E ≤ ((num : ℚ) / den) * (2 : ℚ) ^ E ∧
      ((num : ℚ) / den) * (2 : ℚ) ^ E < 2 ^ 53 * (2 : ℚ) ^ E := by
  have hdq : (0 : ℚ) < (den : ℚ) := by exact_mod_cast hden
  have hq1 : (2 : ℚ) ^ 52 ≤ (num : ℚ) / den := by
    rw [le_div_iff₀ hdq]
    exact_mod_cast hb1
  have hq2 : (num : ℚ) / den < 2 ^ 53 := by
    rw [div_lt_iff₀ hdq]
    exact_mod_cast hb2
  have hE : (0 : ℚ) < (2 : ℚ) ^ E := zpow_pos (by norm_num) E
  constructor
  · exact mul_le_mul_of_nonneg_right hq1 (le_of_lt hE)
  · exact mul_lt_mul_of_pos_right hq2 hE

/-- Scaling congruence: `round53` respects equality of values up to a power
of two (in particular equal fractions round to equal values). -/
theorem round53_scale (a1 b1 a2 b2 : Nat) (t : Int)
    (ha1 : 0 < a1) (hb1 : 0 < b1) (ha2 : 0 < a2) (hb2 : 0 < b2)
    (h : (a1 : ℚ) / b1 = ((a2 : ℚ) / b2) * (2 : ℚ) ^ t) :
    (round53 a1 b1).val = (round53 a2 b2).val * (2 : ℚ) ^ t := by
  obtain ⟨n1, d1, E1, hn1, hd1, he1, hx1, hx2, hv1⟩ := round53_spec a1 b1 ha1 hb1
  obtain ⟨n2, d2, E2, hn2, hd2, he2, hy1, hy2, hv2⟩ := round53_spec a2 b2 ha2 hb2
  have hzne : (2 : ℚ) ≠ 0 := by norm_num
  have hveq : ((n1 : ℚ) / d1) * (2 : ℚ) ^ E1 = ((n2 : ℚ) / d2) * (2 : ℚ) ^ (E2 + t) := by
    rw [hv1, h, ← hv2, zpow_add₀ hzne]
    ring
  obtain ⟨hbl1, hbl2⟩ := round53_binade n1 d1 E1 hd1 hx1 hx2
  obtain ⟨hbl3, hbl4⟩ := round53_binade n2 d2 (E2 + t) hd2 hy1 hy2
  rw [hveq] at hbl1 hbl2
  have hEeq : E1 = E2 + t := binade_eq _ E1 (E2 + t) hbl1 hbl2 hbl3 hbl4
  have hfrac : (n1 : ℚ) / d1 = (n2 : ℚ) / d2 := by
    have hE : (0 : ℚ) < (2 : ℚ) ^ E1 := zpow_pos (by norm_num) E1
    have := hveq
    rw [← hEeq] at this
    exact mul_right_cancel₀ (ne_of_gt hE) this
  have hcross : n1 * d2 = n2 * d1 := by
    have hd1q : (0 : ℚ) < (d1 : ℚ) := by exact_mod_cast hd1
    have hd2q : (0 : ℚ) < (d2 : ℚ) := by exact_mod_cast hd2
    have : (n1 : ℚ) * d2 = (n2 : ℚ) * d1 := by
      field_simp at hfrac
      linarith [hfrac]
    exact_mod_cast this
  have hrne : rne n1 d1 = rne n2 d2 := rne_congr n1 d1 n2 d2 hd1 hd2 hcross
  rw [he1, he2, F64.val_mk, F64.val_mk, hrne, hEeq, zpow_add₀ hzne]
  ring

/-- `round53` is monotone in the rational it rounds. -/
theorem round53_mono (a1 b1 a2 b2 : Nat)
    (ha1 : 0 < a1) (hb1 : 0 < b1) (ha2 : 0 < a2) (hb2 : 0 < b2)
    (h : (a1 : ℚ) / b1 ≤ (a2 : ℚ) / b2) :
    (round53 a1 b1).val ≤ (round53 a2 b2).val := by
  obtain ⟨n1, d1, E1, hn1, hd1, he1, hx1, hx2, hv1⟩ := round53_spec a1 b1 ha1 hb1
  obtain ⟨n2, d2, E2, hn2, hd2, he2, hy1, hy2, hv2⟩ := round53_spec a2 b2 ha2 hb2
  obtain ⟨hbl1, hbl2⟩ := round53_binade n1 d1 E1 hd1 hx1 hx2
  obtain ⟨hbl3, hbl4⟩ := round53_binade n2 d2 E2 hd2 hy1 hy2
  rw [hv1] at hbl1 hbl2
  rw [hv2] at hbl3 hbl4
  obtain ⟨hr1lo, hr1hi⟩ := rne_bracket n1 d1 hd1 hx1 hx2
  obtain ⟨hr2lo, hr2hi⟩ := rne_bracket n2 d2 hd2 hy1 hy2
  rw [he1, he2, F64.val_mk, F64.val_mk]
  rcases lt_trichotomy E1 E2 with hE | hE | hE
  · -- strictly smaller binade: largest value of binade E1 is below binade E2
    have hstep : (2 : ℚ) ^ (E1 + 1) ≤ (2 : ℚ) ^ E2 :=
      zpow_le_zpow_right₀ (by norm_num) (by omega)
    have hr1q : (rne n1 d1 : ℚ) ≤ 2 ^ 53 := by exact_mod_cast hr1hi
    have hr2q : (2 : ℚ) ^ 52 ≤ (rne n2 d2 : ℚ) := by exact_mod_cast hr2lo
    have hE1pos : (0 : ℚ) < (2 : ℚ) ^ E1 := zpow_pos (by norm_num) E1
    have hE2pos : (0 : ℚ) < (2 : ℚ) ^ E2 := zpow_pos (by norm_num) E2
    calc (rne n1 d1 : ℚ) * (2 : ℚ) ^ E1
        ≤ 2 ^ 53 * (2 : ℚ) ^ E1 := mul_le_mul_of_nonneg_right hr1q (le_of_lt hE1pos)
      _ = 2 ^ 52 * (2 : ℚ) ^ (E1 + 1) := by
          rw [zpow_add_one₀ (by norm_num : (2:ℚ) ≠ 0)]
          ring
      _ ≤ 2 ^ 52 * (2 : ℚ) ^ E2 := mul_le_mul_of_nonneg_left hstep (by norm_num)
      _ ≤ (rne n2 d2 : ℚ) * (2 : ℚ) ^ E2 :=
          mul_le_mul_of_nonneg_right hr2q (le_of_lt hE2pos)
  · -- same binade: monotonicity of rne on fractions
    subst hE
    have hfrac : (n1 : ℚ) / d1 ≤ (n2 : ℚ) / d2 := by
      have hE1pos : (0 : ℚ) < (2 : ℚ) ^ E1 := zpow_pos (by norm_num) E1
      have h2 : ((n1 : ℚ) / d1) * (2 : ℚ) ^ E1 ≤ ((n2 : ℚ) / d2) * (2 : ℚ) ^ E1 := by
        rw [hv1, hv2]
        exact h
      exact le_of_mul_le_mul_right h2 hE1pos
    have hcross : n1 * d2 ≤ n2 * d1 := by
      have hd1q : (0 : ℚ) < (d1 : ℚ) := by exact_mod_cast hd1
      have hd2q : (0 : ℚ) < (d2 : ℚ) := by exact_mod_cast hd2
      have : (n1 : ℚ) * d2 ≤ (n2 : ℚ) * d1 := by
        rw [div_le_div_iff₀ hd1q hd2q] at hfrac
        exact hfrac
      exact_mod_cast this
    have hrne : rne n1 d1 ≤ rne n2 d2 := rne_rat_mono n1 d1 n2 d2 hd1 hd2 hcross
    have hE1pos : (0 : ℚ) < (2 : ℚ) ^ E1 := zpow_pos (by norm_num) E1
    exact mul_le_mul_of_nonneg_right (by exact_mod_cast hrne) (le_of_lt hE1pos)
  · -- impossible: the value would lie strictly above itself
    exfalso
    have hstep : (2 : ℚ) ^ (E2 + 1) ≤ (2 : ℚ) ^ E1 :=
      zpow_le_zpow_right₀ (by norm_num) (by omega)
    have : (a2 : ℚ) / b2 < (a1 : ℚ) / b1 := by
      calc (a2 : ℚ) / b2 < 2 ^ 53 * (2 : ℚ) ^ E2 := hbl4
        _ = 2 ^ 52 * (2 : ℚ) ^ (E2 + 1) := by
            rw [zpow_add_one₀ (by norm_num : (2:ℚ) ≠ 0)]
            ring
        _ ≤ 2 ^ 52 * (2 : ℚ) ^ E1 := mul_le_mul_of_nonneg_left hstep (by norm_num)
        _ ≤ (a1 : ℚ) / b1 := hbl1
    linarith

/-! ### `RNQ`: correct rounding as a function on positive rationals -/

/-- Round a positive rational to the nearest binary64 value (nearest,
ties to even), as a rational. -/
def RNQ (q : ℚ) : ℚ := (round53 q.num.toNat q.den).val

theorem ratParts (q : ℚ) (h : 0 < q) :
    ((q.num.toNat : Nat) : ℚ) / ((q.den : Nat) : ℚ) = q := by
  have hn : (0 : ℤ) ≤ q.num := le_of_lt (Rat.num_pos.mpr h)
  have : ((q.num.toNat : Nat) : ℚ) = ((q.num : ℤ) : ℚ) := by
    exact_mod_cast congrArg (fun z => ((z : ℤ) : ℚ)) (Int.toNat_of_nonneg hn)
  rw [this, Rat.num_div_den]

theorem ratParts_num_pos (q : ℚ) (h : 0 < q) : 0 < q.num.toNat := by
  have hn : 0 < q.num := Rat.num_pos.mpr h
  omega

theorem RNQ_eq_round53 (a b : Nat) (ha : 0 < a) (hb : 0 < b) :
    (round53 a b).val = RNQ ((a : ℚ) / b) := by
  set q : ℚ := (a : ℚ) / b with hq
  have hqpos : 0 < q := by
    apply div_pos
    · exact_mod_cast ha
    · exact_mod_cast hb
  have h1 : (a : ℚ) / b = ((q.num.toNat : ℚ) / (q.den : ℚ)) * (2 : ℚ) ^ (0 : Int) := by
    rw [ratParts q hqpos, zpow_zero, mul_one, hq]
  have := round53_scale a b q.num.toNat q.den 0 ha hb (ratParts_num_pos q hqpos) q.den_pos h1
  rw [this, zpow_zero, mul_one]
  rfl

theorem RNQ_pos (q : ℚ) (h : 0 < q) : 0 < RNQ q := by
  have := round53_pos q.num.toNat q.den (ratParts_num_pos q h) q.den_pos
  exact this

theorem RNQ_le (q : ℚ) (h : 0 < q) : RNQ q ≤ q * (1 + 1 / 2 ^ 53) := by
  have := round53_le q.num.toNat q.den (ratParts_num_pos q h) q.den_pos
  rw [ratParts q h] at this
  exact this

theorem RNQ_ge (q : ℚ) (h : 0 < q) : q * (1 - 1 / 2 ^ 53) ≤ RNQ q := by
  have := round53_ge q.num.toNat q.den (ratParts_num_pos q h) q.den_pos
  rw [ratParts q h] at this
  exact this

theorem RNQ_mono (q1 q2 : ℚ) (h1 : 0 < q1) (h12 : q1 ≤ q2) : RNQ q1 ≤ RNQ q2 := by
  have h2 : 0 < q2 := lt_of_lt_of_le h1 h12
  have := round53_mono q1.num.toNat q1.den q2.num.toNat q2.den
    (ratParts_num_pos q1 h1) q1.den_pos (ratParts_num_pos q2 h2) q2.den_pos
    (by rw [ratParts q1 h1, ratParts q2 h2]; exact h12)
  exact this

theorem RNQ_scale (q : ℚ) (t : Int) (h : 0 < q) : RNQ (q * (2 : ℚ) ^ t) = RNQ q * (2 : ℚ) ^ t := by
  have ht : (0 : ℚ) < (2 : ℚ) ^ t := zpow_pos (by norm_num) t
  have h2 : 0 < q * (2 : ℚ) ^ t := mul_pos h ht
  have hrel : ((q * (2 : ℚ) ^ t).num.toNat : ℚ) / ((q * (2 : ℚ) ^ t).den : ℚ)
      = ((q.num.toNat : ℚ) / (q.den : ℚ)) * (2 : ℚ) ^ t := by
    rw [ratParts _ h2, ratParts q h]
  have := round53_scale (q * (2 : ℚ) ^ t).num.toNat (q * (2 : ℚ) ^ t).den
    q.num.toNat q.den t (ratParts_num_pos _ h2) (q * (2 : ℚ) ^ t).den_pos
    (ratParts_num_pos q h) q.den_pos hrel
  exact this

/-- Integers below `2^53` are exactly representable and round to themselves. -/
theorem RNQ_exact_nat (m : Nat) (hm : 0 < m) (h : m < 2 ^ 53) : RNQ ((m : ℚ)) = m := by
  have hv : (round53 m 1).val = m := by
    rw [round53, if_neg (by omega)]
    by_cases hcase : 2 ^ 52 * 1 ≤ m
    · rw [if_pos hcase]
      have hfuel : m < 2 ^ 53 * 1 * 2 ^ m := by
        have h1 : m < 2 ^ m := Nat.lt_two_pow m
        have h2 : 2 ^ m ≤ 2 ^ 53 * 1 * 2 ^ m := Nat.le_mul_of_pos_left _ (by positivity)
        omega
      obtain ⟨hd1, hd2⟩ := downSteps_spec m m 1 (by omega) hcase hfuel
      have hk0 : downSteps m m 1 = 0 := by
        by_contra hk
        have hk1 : 1 ≤ downSteps m m 1 := by omega
        have : (2 : Nat) ^ 1 ≤ 2 ^ downSteps m m 1 := Nat.pow_le_pow_right (by omega) hk1
        have h52 : 2 ^ 52 * (1 * 2 ^ downSteps m m 1) ≤ m := hd1
        have hgr : 2 ^ 52 * (1 * 2 ^ downSteps m m 1) ≥ 2 ^ 52 * 2 := by
          have : 1 * 2 ^ downSteps m m 1 = 2 ^ downSteps m m 1 := by omega
          have h2 : 2 ^ 52 * (1 * 2 ^ downSteps m m 1) = 2 ^ 52 * 2 ^ downSteps m m 1 := by
            rw [this]
          omega
        omega
      rw [hk0]
      have hrne : rne m (1 * 2 ^ 0) = m := by
        have : (1 : Nat) * 2 ^ 0 = 1 := by norm_num
        rw [this, rne_of_dvd m 1 (by omega) (one_dvd m), Nat.div_one]
      rw [F64.val_mk, hrne]
      norm_num
    · rw [if_neg hcase]
      set k := upSteps (53 + 1) m 1 with hk
      have hrne : rne (m * 2 ^ k) 1 = m * 2 ^ k := by
        rw [rne_of_dvd _ 1 (by omega) (one_dvd _), Nat.div_one]
      rw [F64.val_mk, hrne, zpow_neg, zpow_natCast]
      push_cast
      have hpk : ((2 : ℚ) ^ k) ≠ 0 := by positivity
      field_simp
  rw [RNQ_eq_round53 m 1 hm (by omega), Nat.cast_one, div_one] at hv
  exact hv

/-- Dyadic rationals `m * 2^t` with `m < 2^53` round to themselves. -/
theorem RNQ_exact_dyadic (m : Nat) (t : Int) (hm : 0 < m) (h : m < 2 ^ 53) :
    RNQ ((m : ℚ) * (2 : ℚ) ^ t) = (m : ℚ) * (2 : ℚ) ^ t := by
  have hmq : (0 : ℚ) < (m : ℚ) := by exact_mod_cast hm
  rw [RNQ_scale (m : ℚ) t hmq, RNQ_exact_nat m hm h]

/-! ### Values of the `F64` operations -/

theorem F64.val_pos (x : F64) (h : 0 < x.m) : 0 < x.val := by
  rw [F64.val_mk x.m x.e]
  have h1 : (0 : ℚ) < (x.m : ℚ) := by exact_mod_cast h
  have h2 : (0 : ℚ) < (2 : ℚ) ^ x.e := zpow_pos (by norm_num) x.e
  exact mul_pos h1 h2

theorem f64ofNat_val (nn : Nat) (h : 0 < nn) : (f64ofNat nn).val = RNQ nn := by
  rw [f64ofNat, RNQ_eq_round53 nn 1 h (by omega), Nat.cast_one, div_one]

theorem f64ofNat_m_pos (nn : Nat) (h : 0 < nn) : 0 < (f64ofNat nn).m :=
  round53_m_pos nn 1 h (by omega)

theorem F64.val_mul (x y : F64) (hx : 0 < x.m) (hy : 0 < y.m) :
    (F64.mul x y).val = RNQ (x.val * y.val) := by
  have hzne : (2 : ℚ) ≠ 0 := by norm_num
  have hprod : 0 < x.m * y.m := Nat.mul_pos hx hy
  have h1 : (F64.mul x y).val = (round53 (x.m * y.m) 1).val * (2 : ℚ) ^ (x.e + y.e) := by
    show ((round53 (x.m * y.m) 1).m : ℚ)
        * (2 : ℚ) ^ ((round53 (x.m * y.m) 1).e + x.e + y.e)
      = (round53 (x.m * y.m) 1).val * (2 : ℚ) ^ (x.e + y.e)
    rw [add_assoc, zpow_add₀ hzne, F64.val]
    ring
  have h2 : (round53 (x.m * y.m) 1).val = RNQ ((x.m * y.m : Nat) : ℚ) := by
    rw [RNQ_eq_round53 _ 1 hprod (by omega), Nat.cast_one, div_one]
  have h3 : x.val * y.val = ((x.m * y.m : Nat) : ℚ) * (2 : ℚ) ^ (x.e + y.e) := by
    rw [F64.val_mk x.m x.e, F64.val_mk y.m y.e, zpow_add₀ hzne]
    push_cast
    ring
  rw [h1, h2, h3]
  have hq : (0 : ℚ) < ((x.m * y.m : Nat) : ℚ) := by exact_mod_cast hprod
  rw [RNQ_scale _ _ hq]

theorem F64.val_div (x y : F64) (hx : 0 < x.m) (hy : 0 < y.m) :
    (F64.div x y).val = RNQ (x.val / y.val) := by
  have hzne : (2 : ℚ) ≠ 0 := by norm_num
  have h1 : (F64.div x y).val = (round53 x.m y.m).val * (2 : ℚ) ^ (x.e - y.e) := by
    show ((round53 x.m y.m).m : ℚ)
        * (2 : ℚ) ^ ((round53 x.m y.m).e + x.e - y.e)
      = (round53 x.m y.m).val * (2 : ℚ) ^ (x.e - y.e)
    rw [add_sub_assoc, zpow_add₀ hzne, F64.val]
    ring
  have h2 : (round53 x.m y.m).val = RNQ ((x.m : ℚ) / (y.m : ℚ)) := RNQ_eq_round53 x.m y.m hx hy
  have h3 : x.val / y.val = ((x.m : ℚ) / (y.m : ℚ)) * (2 : ℚ) ^ (x.e - y.e) := by
    rw [F64.val_mk x.m x.e, F64.val_mk y.m y.e, zpow_sub₀ hzne]
    have hyq : ((y.m : ℚ)) ≠ 0 := by
      have : (0 : ℚ) < (y.m : ℚ) := by exact_mod_cast hy
      exact ne_of_gt this
    have hpy : ((2 : ℚ) ^ y.e) ≠ 0 := by
      exact ne_of_gt (zpow_pos (by norm_num) y.e)
    field_simp
  rw [h1, h2, h3]
  have hq : (0 : ℚ) < (x.m : ℚ) / (y.m : ℚ) := by
    apply div_pos
    · exact_mod_cast hx
    · exact_mod_cast hy
  rw [RNQ_scale _ _ hq]

theorem F64.mul_m_pos (x y : F64) (hx : 0 < x.m) (hy : 0 < y.m) : 0 < (F64.mul x y).m :=
  round53_m_pos (x.m * y.m) 1 (Nat.mul_pos hx hy) (by omega)

theorem F64.div_m_pos (x y : F64) (hx : 0 < x.m) (hy : 0 < y.m) : 0 < (F64.div x y).m :=
  round53_m_pos x.m y.m hx hy

/-! ### The ceiling-and-cast `F64.ceilNat` -/

theorem ceilNat_ofNat (m k : Nat) : (F64.mk m (Int.ofNat k)).ceilNat = m * 2 ^ k := rfl

theorem ceilNat_negSucc (m k : Nat) :
    (F64.mk m (Int.negSucc k)).ceilNat = (m + 2 ^ (k + 1) - 1) / 2 ^ (k + 1) := rfl

/-- `ceilNat` is the (nonnegative) ceiling: `val ≤ ceilNat < val + 1`. -/
theorem ceilNat_bounds (x : F64) :
    x.val ≤ (x.ceilNat : ℚ) ∧ ((x.ceilNat : ℚ)) < x.val + 1 := by
  obtain ⟨m, e⟩ := x
  cases e with
  | ofNat k =>
    rw [ceilNat_ofNat, F64.val_mk]
    have hz : (2 : ℚ) ^ (Int.ofNat k) = (2 : ℚ) ^ k := by
      rw [Int.ofNat_eq_natCast, zpow_natCast]
    rw [hz]
    constructor
    · push_cast
      linarith
    · push_cast
      linarith
  | negSucc k =>
    rw [ceilNat_negSucc, F64.val_mk, zpow_negSucc]
    set d : Nat := 2 ^ (k + 1) with hd
    have hdpos : 0 < d := by positivity
    have hdq : (0 : ℚ) < (d : ℚ) := by exact_mod_cast hdpos
    have hmod := Nat.div_add_mod (m + d - 1) d
    have hlt : (m + d - 1) % d < d := Nat.mod_lt _ hdpos
    have hnat1 : m ≤ d * ((m + d - 1) / d) := by omega
    have hnat2 : d * ((m + d - 1) / d) < m + d := by omega
    have hcq : ((2 : ℚ) ^ (k + 1)) = (d : ℚ) := by
      rw [hd]
      push_cast
      ring
    rw [hcq]
    have hinv : (m : ℚ) * ((d : ℚ))⁻¹ = (m : ℚ) / d := by
      rw [div_eq_mul_inv]
    rw [hinv]
    constructor
    · rw [div_le_iff₀ hdq]
      have hq : (m : ℚ) ≤ (d : ℚ) * (((m + d - 1) / d : Nat) : ℚ) := by exact_mod_cast hnat1
      linarith
    · have hq : (d : ℚ) * (((m + d - 1) / d : Nat) : ℚ) < (m : ℚ) + d := by exact_mod_cast hnat2
      have h2 : (((m + d - 1) / d : Nat) : ℚ) < ((m : ℚ) + d) / d := by
        rw [lt_div_iff₀ hdq]
        linarith
      have h3 : ((m : ℚ) + d) / d = (m : ℚ) / d + 1 := by
        field_simp
      linarith

/-- `ceilNat` is monotone in the value. -/
theorem ceilNat_mono (x y : F64) (h : x.val ≤ y.val) : x.ceilNat ≤ y.ceilNat := by
  obtain ⟨hx1, hx2⟩ := ceilNat_bounds x
  obtain ⟨hy1, hy2⟩ := ceilNat_bounds y
  have : ((x.ceilNat : ℚ)) < (y.ceilNat : ℚ) + 1 := by linarith
  have hq : (x.ceilNat : ℚ) < ((y.ceilNat + 1 : Nat) : ℚ) := by push_cast; linarith
  have := Nat.cast_lt (α := ℚ) |>.mp hq
  omega

/-! ### Analysis of the percentile index computation -/

theorem cast100 : (((100 : Nat)) : ℚ) = (100 : ℚ) := by norm_num

theorem RNQ_100 : RNQ (((100 : Nat)) : ℚ) = (100 : ℚ) := by
  have := RNQ_exact_nat 100 (by norm_num) (by norm_num)
  rw [this, cast100]

/-- The value of the `f64` expression `p as f64 / 100. * n as f64` as a
chain of correct roundings. -/
theorem xval_eq (p n : Nat) (hp : 0 < p) (hn : 0 < n) :
    (F64.mul (F64.div (f64ofNat p) (f64ofNat 100)) (f64ofNat n)).val
      = RNQ (RNQ (RNQ ((p : ℚ)) / 100) * RNQ ((n : ℚ))) := by
  have hm100 : 0 < (f64ofNat 100).m := f64ofNat_m_pos 100 (by norm_num)
  have hmp : 0 < (f64ofNat p).m := f64ofNat_m_pos p hp
  have hmn : 0 < (f64ofNat n).m := f64ofNat_m_pos n hn
  rw [F64.val_mul _ _ (F64.div_m_pos _ _ hmp hm100) hmn]
  rw [F64.val_div _ _ hmp hm100]
  rw [f64ofNat_val p hp, f64ofNat_val 100 (by norm_num), f64ofNat_val n hn]
  rw [RNQ_100]

theorem xval_pos (p n : Nat) (hp : 0 < p) (hn : 0 < n) :
    0 < (F64.mul (F64.div (f64ofNat p) (f64ofNat 100)) (f64ofNat n)).val := by
  rw [xval_eq p n hp hn]
  have hpq : (0 : ℚ) < (p : ℚ) := by exact_mod_cast hp
  have hnq : (0 : ℚ) < (n : ℚ) := by exact_mod_cast hn
  have h1 : 0 < RNQ ((p : ℚ)) := RNQ_pos _ hpq
  have h2 : 0 < RNQ ((p : ℚ)) / 100 := by positivity
  have h3 : 0 < RNQ (RNQ ((p : ℚ)) / 100) := RNQ_pos _ h2
  have h4 : 0 < RNQ ((n : ℚ)) := RNQ_pos _ hnq
  exact RNQ_pos _ (mul_pos h3 h4)

/-- Two-rounding bracket when `p ≤ 100` and `n < 2^53` (both conversions are
then exact). -/
theorem xval_bounds_small (p n : Nat) (hp : 0 < p) (h100 : p ≤ 100) (hn : 0 < n)
    (hn53 : n < 2 ^ 53) :
    ((p : ℚ) * n / 100) * (1 - 1 / 2 ^ 53) ^ 2
      ≤ (F64.mul (F64.div (f64ofNat p) (f64ofNat 100)) (f64ofNat n)).val ∧
    (F64.mul (F64.div (f64ofNat p) (f64ofNat 100)) (f64ofNat n)).val
      ≤ ((p : ℚ) * n / 100) * (1 + 1 / 2 ^ 53) ^ 2 := by
  have hpq : (0 : ℚ) < (p : ℚ) := by exact_mod_cast hp
  have hnq : (0 : ℚ) < (n : ℚ) := by exact_mod_cast hn
  rw [xval_eq p n hp hn]
  have hpexact : RNQ ((p : ℚ)) = (p : ℚ) := RNQ_exact_nat p hp (by omega)
  have hnexact : RNQ ((n : ℚ)) = (n : ℚ) := RNQ_exact_nat n hn hn53
  rw [hpexact, hnexact]
  have hdivpos : (0 : ℚ) < (p : ℚ) / 100 := by positivity
  have hD1 : ((p : ℚ) / 100) * (1 - 1 / 2 ^ 53) ≤ RNQ ((p : ℚ) / 100) := RNQ_ge _ hdivpos
  have hD2 : RNQ ((p : ℚ) / 100) ≤ ((p : ℚ) / 100) * (1 + 1 / 2 ^ 53) := RNQ_le _ hdivpos
  have hDpos : 0 < RNQ ((p : ℚ) / 100) := RNQ_pos _ hdivpos
  have hMpos : 0 < RNQ ((p : ℚ) / 100) * (n : ℚ) := mul_pos hDpos hnq
  have hX1 : (RNQ ((p : ℚ) / 100) * (n : ℚ)) * (1 - 1 / 2 ^ 53)
      ≤ RNQ (RNQ ((p : ℚ) / 100) * (n : ℚ)) := RNQ_ge _ hMpos
  have hX2 : RNQ (RNQ ((p : ℚ) / 100) * (n : ℚ))
      ≤ (RNQ ((p : ℚ) / 100) * (n : ℚ)) * (1 + 1 / 2 ^ 53) := RNQ_le _ hMpos
  constructor
  · calc ((p : ℚ) * n / 100) * (1 - 1 / 2 ^ 53) ^ 2
        = ((((p : ℚ) / 100) * (1 - 1 / 2 ^ 53)) * (n : ℚ)) * (1 - 1 / 2 ^ 53) := by ring
      _ ≤ (RNQ ((p : ℚ) / 100) * (n : ℚ)) * (1 - 1 / 2 ^ 53) :=
          mul_le_mul_of_nonneg_right
            (mul_le_mul_of_nonneg_right hD1 (le_of_lt hnq)) (by norm_num)
      _ ≤ RNQ (RNQ ((p : ℚ) / 100) * (n : ℚ)) := hX1
  · calc RNQ (RNQ ((p : ℚ) / 100) * (n : ℚ))
        ≤ (RNQ ((p : ℚ) / 100) * (n : ℚ)) * (1 + 1 / 2 ^ 53) := hX2
      _ ≤ ((((p : ℚ) / 100) * (1 + 1 / 2 ^ 53)) * (n : ℚ)) * (1 + 1 / 2 ^ 53) :=
          mul_le_mul_of_nonneg_right
            (mul_le_mul_of_nonneg_right hD2 (le_of_lt hnq)) (by norm_num)
      _ = ((p : ℚ) * n / 100) * (1 + 1 / 2 ^ 53) ^ 2 := by ring

/-- Three-rounding upper bound for `p ≤ 99` and arbitrary `n` (the
conversion of `n` may round). -/
theorem xval_upper_p99 (p n : Nat) (hp : 0 < p) (h99 : p ≤ 99) (hn : 0 < n) :
    (F64.mul (F64.div (f64ofNat p) (f64ofNat 100)) (f64ofNat n)).val
      ≤ ((p : ℚ) * n / 100) * (1 + 1 / 2 ^ 53) ^ 3 := by
  have hpq : (0 : ℚ) < (p : ℚ) := by exact_mod_cast hp
  have hnq : (0 : ℚ) < (n : ℚ) := by exact_mod_cast hn
  rw [xval_eq p n hp hn]
  have hpexact : RNQ ((p : ℚ)) = (p : ℚ) := RNQ_exact_nat p hp (by omega)
  rw [hpexact]
  have hdivpos : (0 : ℚ) < (p : ℚ) / 100 := by positivity
  have hD2 : RNQ ((p : ℚ) / 100) ≤ ((p : ℚ) / 100) * (1 + 1 / 2 ^ 53) := RNQ_le _ hdivpos
  have hDpos : 0 < RNQ ((p : ℚ) / 100) := RNQ_pos _ hdivpos
  have hN2 : RNQ ((n : ℚ)) ≤ (n : ℚ) * (1 + 1 / 2 ^ 53) := RNQ_le _ hnq
  have hNpos : 0 < RNQ ((n : ℚ)) := RNQ_pos _ hnq
  have hMpos : 0 < RNQ ((p : ℚ) / 100) * RNQ ((n : ℚ)) := mul_pos hDpos hNpos
  have hX2 : RNQ (RNQ ((p : ℚ) / 100) * RNQ ((n : ℚ)))
      ≤ (RNQ ((p : ℚ) / 100) * RNQ ((n : ℚ))) * (1 + 1 / 2 ^ 53) := RNQ_le _ hMpos
  calc RNQ (RNQ ((p : ℚ) / 100) * RNQ ((n : ℚ)))
      ≤ (RNQ ((p : ℚ) / 100) * RNQ ((n : ℚ))) * (1 + 1 / 2 ^ 53) := hX2
    _ ≤ ((((p : ℚ) / 100) * (1 + 1 / 2 ^ 53)) * ((n : ℚ) * (1 + 1 / 2 ^ 53)))
          * (1 + 1 / 2 ^ 53) := by
        have hmm : RNQ ((p : ℚ) / 100) * RNQ ((n : ℚ))
            ≤ (((p : ℚ) / 100) * (1 + 1 / 2 ^ 53)) * ((n : ℚ) * (1 + 1 / 2 ^ 53)) :=
          mul_le_mul hD2 hN2 (le_of_lt hNpos) (by positivity)
        exact mul_le_mul_of_nonneg_right hmm (by norm_num)
    _ = ((p : ℚ) * n / 100) * (1 + 1 / 2 ^ 53) ^ 3 := by ring

/-- Four-rounding lower bound for arbitrary `p` and `n` (both conversions
may round). -/
theorem xval_lower_general (p n : Nat) (hp : 0 < p) (hn : 0 < n) :
    ((p : ℚ) * n / 100) * (1 - 1 / 2 ^ 53) ^ 4
      ≤ (F64.mul (F64.div (f64ofNat p) (f64ofNat 100)) (f64ofNat n)).val := by
  have hpq : (0 : ℚ) < (p : ℚ) := by exact_mod_cast hp
  have hnq : (0 : ℚ) < (n : ℚ) := by exact_mod_cast hn
  rw [xval_eq p n hp hn]
  have hP1 : (p : ℚ) * (1 - 1 / 2 ^ 53) ≤ RNQ ((p : ℚ)) := RNQ_ge _ hpq
  have hPpos : 0 < RNQ ((p : ℚ)) := RNQ_pos _ hpq
  have hdivpos : (0 : ℚ) < RNQ ((p : ℚ)) / 100 := by positivity
  have hD1 : (RNQ ((p : ℚ)) / 100) * (1 - 1 / 2 ^ 53) ≤ RNQ (RNQ ((p : ℚ)) / 100) :=
    RNQ_ge _ hdivpos
  have hDpos : 0 < RNQ (RNQ ((p : ℚ)) / 100) := RNQ_pos _ hdivpos
  have hN1 : (n : ℚ) * (1 - 1 / 2 ^ 53) ≤ RNQ ((n : ℚ)) := RNQ_ge _ hnq
  have hNpos : 0 < RNQ ((n : ℚ)) := RNQ_pos _ hnq
  have hMpos : 0 < RNQ (RNQ ((p : ℚ)) / 100) * RNQ ((n : ℚ)) := mul_pos hDpos hNpos
  have hX1 : (RNQ (RNQ ((p : ℚ)) / 100) * RNQ ((n : ℚ))) * (1 - 1 / 2 ^ 53)
      ≤ RNQ (RNQ (RNQ ((p : ℚ)) / 100) * RNQ ((n : ℚ))) := RNQ_ge _ hMpos
  have hc : (0 : ℚ) ≤ 1 - 1 / 2 ^ 53 := by norm_num
  have hDlow : (((p : ℚ) * (1 - 1 / 2 ^ 53)) / 100) * (1 - 1 / 2 ^ 53)
      ≤ RNQ (RNQ ((p : ℚ)) / 100) := by
    have hd : ((p : ℚ) * (1 - 1 / 2 ^ 53)) / 100 ≤ RNQ ((p : ℚ)) / 100 := by
      gcongr
    exact le_trans (mul_le_mul_of_nonneg_right hd hc) hD1
  have hprod : ((((p : ℚ) * (1 - 1 / 2 ^ 53)) / 100) * (1 - 1 / 2 ^ 53))
        * ((n : ℚ) * (1 - 1 / 2 ^ 53))
      ≤ RNQ (RNQ ((p : ℚ)) / 100) * RNQ ((n : ℚ)) := by
    apply mul_le_mul hDlow hN1 ?hnn (le_of_lt hDpos)
    exact mul_nonneg (le_of_lt hnq) hc
  calc ((p : ℚ) * n / 100) * (1 - 1 / 2 ^ 53) ^ 4
      = (((((p : ℚ) * (1 - 1 / 2 ^ 53)) / 100) * (1 - 1 / 2 ^ 53))
          * ((n : ℚ) * (1 - 1 / 2 ^ 53))) * (1 - 1 / 2 ^ 53) := by ring
    _ ≤ (RNQ (RNQ ((p : ℚ)) / 100) * RNQ ((n : ℚ))) * (1 - 1 / 2 ^ 53) :=
        mul_le_mul_of_nonneg_right hprod hc
    _ ≤ RNQ (RNQ (RNQ ((p : ℚ)) / 100) * RNQ ((n : ℚ))) := hX1

/-- The computed index is at least 1 whenever `p ≥ 1` and `n ≥ 1`. -/
theorem percIndex_pos (p n : Nat) (hp : 0 < p) (hn : 0 < n) : 1 ≤ percIndex p n := by
  have hx := xval_pos p n hp hn
  obtain ⟨h1, _⟩ := ceilNat_bounds (F64.mul (F64.div (f64ofNat p) (f64ofNat 100)) (f64ofNat n))
  by_contra hc
  push_neg at hc
  have h0 : percIndex p n = 0 := by omega
  rw [percIndex] at h0
  rw [h0] at h1
  norm_num at h1
  linarith

/-- For `1 ≤ p ≤ 99` the computed index never exceeds `n`. -/
theorem percIndex_le_n (p n : Nat) (hp : 0 < p) (h99 : p ≤ 99) (hn : 0 < n) :
    percIndex p n ≤ n := by
  have hup := xval_upper_p99 p n hp h99 hn
  have hnq : (0 : ℚ) < (n : ℚ) := by exact_mod_cast hn
  have hples : ((p : ℚ) * n / 100) * (1 + 1 / 2 ^ 53) ^ 3
      ≤ ((99 : ℚ) * n / 100) * (1 + 1 / 2 ^ 53) ^ 3 := by
    have hpq : (p : ℚ) ≤ 99 := by exact_mod_cast h99
    gcongr
  have hlt : ((99 : ℚ) * n / 100) * (1 + 1 / 2 ^ 53) ^ 3 < (n : ℚ) := by
    have hc : ((99 : ℚ) / 100) * (1 + 1 / 2 ^ 53) ^ 3 < 1 := by norm_num
    calc ((99 : ℚ) * n / 100) * (1 + 1 / 2 ^ 53) ^ 3
        = (((99 : ℚ) / 100) * (1 + 1 / 2 ^ 53) ^ 3) * (n : ℚ) := by ring
      _ < 1 * (n : ℚ) := mul_lt_mul_of_pos_right hc hnq
      _ = (n : ℚ) := one_mul _
  obtain ⟨_, h2⟩ := ceilNat_bounds (F64.mul (F64.div (f64ofNat p) (f64ofNat 100)) (f64ofNat n))
  rw [percIndex]
  have hql : ((F64.mul (F64.div (f64ofNat p) (f64ofNat 100)) (f64ofNat n)).ceilNat : ℚ)
      < (n : ℚ) + 1 := by linarith
  have : ((F64.mul (F64.div (f64ofNat p) (f64ofNat 100)) (f64ofNat n)).ceilNat : ℚ)
      < ((n + 1 : Nat) : ℚ) := by push_cast; linarith
  have := Nat.cast_lt (α := ℚ) |>.mp this
  omega

/-- `p = 100` computes the index exactly: it equals `n` (for `n < 2^53`). -/
theorem percIndex_100 (n : Nat) (hn : 0 < n) (hn53 : n < 2 ^ 53) : percIndex 100 n = n := by
  have hx : (F64.mul (F64.div (f64ofNat 100) (f64ofNat 100)) (f64ofNat n)).val = (n : ℚ) := by
    rw [xval_eq 100 n (by norm_num) hn]
    rw [RNQ_100]
    have h1 : (100 : ℚ) / 100 = ((1 : Nat) : ℚ) := by norm_num
    rw [h1, RNQ_exact_nat 1 (by norm_num) (by norm_num)]
    have hnexact : RNQ ((n : ℚ)) = (n : ℚ) := RNQ_exact_nat n hn hn53
    rw [hnexact]
    have h2 : ((1 : Nat) : ℚ) * (n : ℚ) = ((n : Nat) : ℚ) := by push_cast; ring
    rw [h2, hnexact]
  obtain ⟨h1, h2⟩ := ceilNat_bounds (F64.mul (F64.div (f64ofNat 100) (f64ofNat 100)) (f64ofNat n))
  rw [hx] at h1 h2
  rw [percIndex]
  have hub : ((F64.mul (F64.div (f64ofNat 100) (f64ofNat 100)) (f64ofNat n)).ceilNat : ℚ)
      < ((n + 1 : Nat) : ℚ) := by push_cast; linarith
  have hub2 := Nat.cast_lt (α := ℚ) |>.mp hub
  have hlb : ((n : Nat) : ℚ) ≤ ((F64.mul (F64.div (f64ofNat 100) (f64ofNat 100)) (f64ofNat n)).ceilNat : ℚ) := h1
  have hlb2 := Nat.cast_le (α := ℚ) |>.mp hlb
  omega

/-- Tight two-sided bound: for `p ≤ 100`, `n ≤ 2^44` the binary64 value is
within `1/128` of the exact rank `p·n/100`. -/
theorem xval_close (p n : Nat) (hp : 0 < p) (h100 : p ≤ 100) (hn : 0 < n) (hb : n ≤ 2 ^ 44) :
    (p : ℚ) * n / 100 - 1 / 128
      ≤ (F64.mul (F64.div (f64ofNat p) (f64ofNat 100)) (f64ofNat n)).val ∧
    (F64.mul (F64.div (f64ofNat p) (f64ofNat 100)) (f64ofNat n)).val
      ≤ (p : ℚ) * n / 100 + 1 / 128 := by
  obtain ⟨hlo, hhi⟩ := xval_bounds_small p n hp h100 hn (by omega)
  have hq0 : (0 : ℚ) ≤ (p : ℚ) * n / 100 := by positivity
  have hqn : (p : ℚ) * n / 100 ≤ (n : ℚ) := by
    have hpq : (p : ℚ) ≤ 100 := by exact_mod_cast h100
    have hnq : (0 : ℚ) ≤ (n : ℚ) := by positivity
    rw [div_le_iff₀ (by norm_num : (0:ℚ) < 100)]
    nlinarith
  have hn44 : (n : ℚ) ≤ 2 ^ 44 := by exact_mod_cast hb
  constructor
  · nlinarith [hlo, hq0, hqn, hn44]
  · nlinarith [hhi, hq0, hqn, hn44]

/-- For `p > 100` the computed index strictly exceeds `n`. -/
theorem percIndex_gt_of_gt100 (p n : Nat) (hp : 101 ≤ p) (hn : 0 < n) :
    n < percIndex p n := by
  have hlow := xval_lower_general p n (by omega) hn
  have hnq : (0 : ℚ) < (n : ℚ) := by exact_mod_cast hn
  have hplow : ((101 : ℚ) * n / 100) * (1 - 1 / 2 ^ 53) ^ 4
      ≤ ((p : ℚ) * n / 100) * (1 - 1 / 2 ^ 53) ^ 4 := by
    have hpq : (101 : ℚ) ≤ (p : ℚ) := by exact_mod_cast hp
    gcongr
  have hgt : (n : ℚ) < ((101 : ℚ) * n / 100) * (1 - 1 / 2 ^ 53) ^ 4 := by
    have hc : (1 : ℚ) < ((101 : ℚ) / 100) * (1 - 1 / 2 ^ 53) ^ 4 := by norm_num
    calc (n : ℚ) = 1 * (n : ℚ) := (one_mul _).symm
      _ < (((101 : ℚ) / 100) * (1 - 1 / 2 ^ 53) ^ 4) * (n : ℚ) := mul_lt_mul_of_pos_right hc hnq
      _ = ((101 : ℚ) * n / 100) * (1 - 1 / 2 ^ 53) ^ 4 := by ring
  obtain ⟨h1, _⟩ := ceilNat_bounds (F64.mul (F64.div (f64ofNat p) (f64ofNat 100)) (f64ofNat n))
  rw [percIndex]
  have : (n : ℚ) < ((F64.mul (F64.div (f64ofNat p) (f64ofNat 100)) (f64ofNat n)).ceilNat : ℚ) := by
    linarith
  exact_mod_cast this

/-- The computed index is monotone in `p`. -/
theorem percIndex_mono (p1 p2 n : Nat) (hp1 : 0 < p1) (h12 : p1 ≤ p2) (hn : 0 < n) :
    percIndex p1 n ≤ percIndex p2 n := by
  apply ceilNat_mono
  rw [xval_eq p1 n hp1 hn, xval_eq p2 n (by omega) hn]
  have hp1q : (0 : ℚ) < (p1 : ℚ) := by exact_mod_cast hp1
  have hp2q : (0 : ℚ) < (p2 : ℚ) := by exact_mod_cast (by omega : 0 < p2)
  have h12q : (p1 : ℚ) ≤ (p2 : ℚ) := by exact_mod_cast h12
  have hnq : (0 : ℚ) < (n : ℚ) := by exact_mod_cast hn
  have hP : RNQ ((p1 : ℚ)) ≤ RNQ ((p2 : ℚ)) := RNQ_mono _ _ hp1q h12q
  have hPpos : 0 < RNQ ((p1 : ℚ)) := RNQ_pos _ hp1q
  have hDarg : RNQ ((p1 : ℚ)) / 100 ≤ RNQ ((p2 : ℚ)) / 100 := by gcongr
  have hDargpos : 0 < RNQ ((p1 : ℚ)) / 100 := by positivity
  have hD : RNQ (RNQ ((p1 : ℚ)) / 100) ≤ RNQ (RNQ ((p2 : ℚ)) / 100) :=
    RNQ_mono _ _ hDargpos hDarg
  have hDpos : 0 < RNQ (RNQ ((p1 : ℚ)) / 100) := RNQ_pos _ hDargpos
  have hNpos : 0 < RNQ ((n : ℚ)) := RNQ_pos _ hnq
  have hM : RNQ (RNQ ((p1 : ℚ)) / 100) * RNQ ((n : ℚ))
      ≤ RNQ (RNQ ((p2 : ℚ)) / 100) * RNQ ((n : ℚ)) :=
    mul_le_mul_of_nonneg_right hD (le_of_lt hNpos)
  exact RNQ_mono _ _ (mul_pos hDpos hNpos) hM

/-- Exact characterisation of the computed index for `p ≤ 100`, `n ≤ 2^44`:
it lies in `{⌈p·n/100⌉, ⌈p·n/100⌉ + 1}`, never exceeds `n`, and equals
`⌈p·n/100⌉ = (p·n + 99) / 100` whenever `p·n` is not a multiple of `100`. -/
theorem percIndex_close (p n : Nat) (hp : 0 < p) (h100 : p ≤ 100) (hn : 0 < n)
    (hb : n ≤ 2 ^ 44) :
    (p * n + 99) / 100 ≤ percIndex p n ∧
    percIndex p n ≤ (p * n + 99) / 100 + 1 ∧
    percIndex p n ≤ n ∧
    (¬ (100 ∣ p * n) → percIndex p n = (p * n + 99) / 100) := by
  obtain ⟨hclo, hchi⟩ := xval_close p n hp h100 hn hb
  obtain ⟨hb1, hb2⟩ := ceilNat_bounds (F64.mul (F64.div (f64ofNat p) (f64ofNat 100)) (f64ofNat n))
  set i := percIndex p n with hi
  have hiceil : i = (F64.mul (F64.div (f64ofNat p) (f64ofNat 100)) (f64ofNat n)).ceilNat := rfl
  rw [← hiceil] at hb1 hb2
  set i0 := (p * n + 99) / 100 with hi0
  have hdiv := Nat.div_add_mod (p * n + 99) 100
  have hmod : (p * n + 99) % 100 < 100 := Nat.mod_lt _ (by norm_num)
  have h_a : p * n ≤ 100 * i0 := by omega
  have h_b : 100 * i0 ≤ p * n + 99 := by omega
  have hpn1 : 1 ≤ p * n := Nat.mul_pos hp hn
  have hi0pos : 1 ≤ i0 := by omega
  have hq_le : (p : ℚ) * n / 100 ≤ (i0 : ℚ) := by
    rw [div_le_iff₀ (by norm_num : (0:ℚ) < 100)]
    have : ((p * n : Nat) : ℚ) ≤ ((100 * i0 : Nat) : ℚ) := by exact_mod_cast h_a
    push_cast at this
    linarith
  have hq_gt : ((i0 : ℚ)) - 1 + 1 / 100 ≤ (p : ℚ) * n / 100 := by
    rw [le_div_iff₀ (by norm_num : (0:ℚ) < 100)]
    have : ((100 * i0 : Nat) : ℚ) ≤ ((p * n + 99 : Nat) : ℚ) := by exact_mod_cast h_b
    push_cast at this
    linarith
  have hlower : i0 ≤ i := by
    have h1 : ((i0 : ℚ)) - 1 < (i : ℚ) := by linarith
    have h2 : ((i0 : ℚ)) < ((i + 1 : Nat) : ℚ) := by push_cast; linarith
    have := Nat.cast_lt (α := ℚ) |>.mp h2
    omega
  have hupper : i ≤ i0 + 1 := by
    have h1 : (i : ℚ) < ((i0 + 2 : Nat) : ℚ) := by push_cast; linarith
    have := Nat.cast_lt (α := ℚ) |>.mp h1
    omega
  have hle_n : i ≤ n := by
    rcases Nat.lt_or_ge p 100 with hcase | hcase
    · exact percIndex_le_n p n hp (by omega) hn
    · have hp100 : p = 100 := by omega
      rw [hi, hp100, percIndex_100 n hn (by omega)]
  refine ⟨hlower, hupper, hle_n, ?_⟩
  intro hndvd
  have hne : 100 * i0 ≠ p * n := by
    intro hceq
    exact hndvd ⟨i0, hceq.symm⟩
  have h_c : p * n + 1 ≤ 100 * i0 := by omega
  have hq_le2 : (p : ℚ) * n / 100 ≤ ((i0 : ℚ)) - 1 / 100 := by
    rw [div_le_iff₀ (by norm_num : (0:ℚ) < 100)]
    have : ((p * n + 1 : Nat) : ℚ) ≤ ((100 * i0 : Nat) : ℚ) := by exact_mod_cast h_c
    push_cast at this
    linarith
  have h1 : (i : ℚ) < ((i0 + 1 : Nat) : ℚ) := by push_cast; linarith
  have := Nat.cast_lt (α := ℚ) |>.mp h1
  omega

/-- The three ratios the renderer uses round down (or exactly) in binary64:
`50/100` is exactly `1/2`, and the binary64 values of `95/100` and `99/100`
lie just below the true ratios (concrete roundings, checked by
evaluation). -/
theorem RNQ_renderer_down (p : Nat) (hmem : p = 50 ∨ p = 95 ∨ p = 99) :
    RNQ ((p : ℚ) / 100) ≤ (p : ℚ) / 100 := by
  have hcast : ((100 : Nat) : ℚ) = (100 : ℚ) := by norm_num
  rcases hmem with h | h | h <;> subst h
  · rw [← hcast, ← RNQ_eq_round53 50 100 (by norm_num) (by norm_num)]
    have h2 : round53 50 100 = ⟨4503599627370496, -53⟩ := by decide
    rw [h2, F64.val_mk]
    norm_num
  · rw [← hcast, ← RNQ_eq_round53 95 100 (by norm_num) (by norm_num)]
    have h2 : round53 95 100 = ⟨8556839292003942, -53⟩ := by decide
    rw [h2, F64.val_mk]
    norm_num
  · rw [← hcast, ← RNQ_eq_round53 99 100 (by norm_num) (by norm_num)]
    have h2 : round53 99 100 = ⟨8917127262193582, -53⟩ := by decide
    rw [h2, F64.val_mk]
    norm_num

/-- If the binary64 rounding of `p/100` does not overshoot `p/100`, the
computed index equals the exact rank `⌈p·n/100⌉` for every `n ≤ 2^44` —
also at the multiples-of-100 boundaries, where the general bracket alone
would still allow an overshoot by one. -/
theorem percIndex_exact_of_round_down (p n : Nat) (hp : 0 < p) (h100 : p ≤ 100)
    (hn : 0 < n) (hb : n ≤ 2 ^ 44)
    (hdown : RNQ ((p : ℚ) / 100) ≤ (p : ℚ) / 100) :
    percIndex p n = (p * n + 99) / 100 := by
  obtain ⟨hlow, _, _, hexact⟩ := percIndex_close p n hp h100 hn hb
  by_cases hdvd : 100 ∣ p * n
  · obtain ⟨c, hc⟩ := hdvd
    have hc99 : (p * n + 99) / 100 = c := by omega
    have hpn1 : 1 ≤ p * n := Nat.mul_pos hp hn
    have hcpos : 0 < c := by omega
    have hcn : c ≤ n := by
      have hle : p * n ≤ 100 * n := Nat.mul_le_mul_right n h100
      omega
    have hpq : (0 : ℚ) < (p : ℚ) := by exact_mod_cast hp
    have hnq : (0 : ℚ) < (n : ℚ) := by exact_mod_cast hn
    have hpexact : RNQ ((p : ℚ)) = (p : ℚ) := RNQ_exact_nat p hp (by omega)
    have hnexact : RNQ ((n : ℚ)) = (n : ℚ) := RNQ_exact_nat n hn (by omega)
    have hxeq : (F64.mul (F64.div (f64ofNat p) (f64ofNat 100)) (f64ofNat n)).val
        = RNQ (RNQ ((p : ℚ) / 100) * (n : ℚ)) := by
      rw [xval_eq p n hp hn, hpexact, hnexact]
    have hdivpos : (0 : ℚ) < (p : ℚ) / 100 := by positivity
    have hqpos : 0 < RNQ ((p : ℚ) / 100) := RNQ_pos _ hdivpos
    have hcast : (p : ℚ) * (n : ℚ) = 100 * (c : ℚ) := by
      have hq := congrArg (fun k : Nat => (k : ℚ)) hc
      push_cast at hq
      linarith
    have hceq : ((p : ℚ) / 100) * (n : ℚ) = (c : ℚ) := by
      field_simp
      linarith
    have hprod : RNQ ((p : ℚ) / 100) * (n : ℚ) ≤ (c : ℚ) := by
      calc RNQ ((p : ℚ) / 100) * (n : ℚ)
          ≤ ((p : ℚ) / 100) * (n : ℚ) :=
            mul_le_mul_of_nonneg_right hdown (le_of_lt hnq)
        _ = (c : ℚ) := hceq
    have hprodpos : 0 < RNQ ((p : ℚ) / 100) * (n : ℚ) := mul_pos hqpos hnq
    have hxle : RNQ (RNQ ((p : ℚ) / 100) * (n : ℚ)) ≤ (c : ℚ) := by
      calc RNQ (RNQ ((p : ℚ) / 100) * (n : ℚ))
          ≤ RNQ ((c : ℚ)) := RNQ_mono _ _ hprodpos hprod
        _ = (c : ℚ) := RNQ_exact_nat c hcpos (by omega)
    set i := percIndex p n with hi
    have hiceil : i = (F64.mul (F64.div (f64ofNat p) (f64ofNat 100)) (f64ofNat n)).ceilNat := rfl
    obtain ⟨_, hb2⟩ :=
      ceilNat_bounds (F64.mul (F64.div (f64ofNat p) (f64ofNat 100)) (f64ofNat n))
    rw [← hiceil, hxeq] at hb2
    have hlt : (i : ℚ) < ((c + 1 : Nat) : ℚ) := by
      push_cast
      linarith
    have hle2 := Nat.cast_lt (α := ℚ) |>.mp hlt
    omega
  · exact hexact hdvd

/-- Characterisation of `percentile` when the computed index is in range:
it returns position `i - 1` of the ascending sorted copy (for any sorted
permutation, which is unique), and it succeeds. -/
theorem percentile_spec (br : BenchResult) (p : Nat) (hp : 0 < p)
    (hi1 : 1 ≤ percIndex p br.list.length)
    (hin : percIndex p br.list.length ≤ br.list.length) :
    (∀ l2 : List Nat, l2.Perm br.list → l2.Sorted (· ≤ ·) →
      br.percentile p = l2[percIndex p br.list.length - 1]?) ∧
    (br.percentile p).isSome := by
  have hsorted := List.sorted_insertionSort (· ≤ ·) br.list
  have hperm := List.perm_insertionSort (· ≤ ·) br.list
  have hlen : (List.insertionSort (· ≤ ·) br.list).length = br.list.length := hperm.length_eq
  have hunfold : br.percentile p
      = (List.insertionSort (· ≤ ·) br.list)[percIndex p br.list.length - 1]? := by
    rw [BenchResult.percentile, if_neg (by omega)]
    simp only []
    rw [if_neg (by omega)]
  constructor
  · intro l2 hp2 hs2
    have : l2 = List.insertionSort (· ≤ ·) br.list :=
      List.eq_of_perm_of_sorted (hp2.trans hperm.symm) hs2 hsorted
    rw [hunfold, this]
  · rw [hunfold]
    have hidx : percIndex p br.list.length - 1 < (List.insertionSort (· ≤ ·) br.list).length := by
      omega
    rw [List.getElem?_eq_getElem hidx]
    rfl

/-! ### Duration `Debug` formatting -/

/-- Digits of the fractional part `frac/divisor`, most significant first,
with trailing zeros trimmed — the digit loop of Rust's `Duration` `Debug`
implementation (`fmt_decimal`) when no precision is requested. -/
def fracDigits : Nat → Nat → Nat → List Nat
  | 0, _, _ => []
  | fuel + 1, frac, divisor =>
    if frac = 0 ∨ divisor = 0 then []
    else (frac / divisor) :: fracDigits fuel (frac % divisor) (divisor / 10)

/-- One decimal value of Rust's `Duration` `Debug`: integer part, then a
fractional part with trailing zeros trimmed (omitted entirely when zero),
then the unit. -/
def fmtDecimal (intPart frac divisor : Nat) (unit : String) : String :=
  let digits := fracDigits 9 frac divisor
  if digits.isEmpty then Nat.repr intPart ++ unit
  else Nat.repr intPart ++ "." ++ String.mk (digits.map Nat.digitChar) ++ unit

/-- The `Debug` rendering of a `Duration` of `d` nanoseconds (`"1.5s"`,
`"1.234567ms"`, `"1µs"`, `"0ns"`, …). -/
def durationRepr (d : Nat) : String :=
  let secs := d / 1000000000
  let nanos := d % 1000000000
  if 0 < secs then fmtDecimal secs nanos 100000000 "s"
  else if 1000000 ≤ nanos then fmtDecimal (nanos / 1000000) (nanos % 1000000) 100000 "ms"
  else if 1000 ≤ nanos then fmtDecimal (nanos / 1000) (nanos % 1000) 100 "µs"
  else fmtDecimal nanos 0 0 "ns"

/-- `impl fmt::Display for BenchResult`: computes the three percentiles,
then writes the two lines; each `writeln!` appends a newline.  Any panic
inside (percentile or the mean's division) aborts the rendering (`none`). -/
def BenchResult.render (br : BenchResult) : Option String :=
  match br.percentile 50, br.percentile 95, br.percentile 99 with
  | some p50, some p95, some p99 =>
    br.average.map (fun ave =>
      "[ave.] " ++ durationRepr ave ++ "\n" ++
      durationRepr p50 ++ " (>50%), " ++ durationRepr p95 ++ " (>95%), " ++
      durationRepr p99 ++ " (>99%)\n")
  | _, _, _ => none

/-! ### The registry, session, timer, slice -/

/-- The registry: `tag_indices: IndexSet<String>` (insertion-ordered set of
tags, display order) and `h: HashMap<String, BenchResult>` (modelled as a
lookup function, as a `HashMap` has no observable order here). -/
structure ResultSet where
  tag_indices : List String
  h : String → Option BenchResult

def ResultSet.new : ResultSet := ⟨[], fun _ => none⟩

/-- `ResultSet::reserve_tag` — `IndexSet::insert`: appends the tag if absent,
keeps the original position otherwise. -/
def ResultSet.reserve_tag (rs : ResultSet) (tag : String) : ResultSet :=
  { rs with tag_indices :=
      if tag ∈ rs.tag_indices then rs.tag_indices else rs.tag_indices ++ [tag] }

/-- `ResultSet::add_result` —
`self.h.entry(tag).or_insert(BenchResult::new()).add_result(du)`. -/
def ResultSet.add_result (rs : ResultSet) (tag : String) (du : Nat) : ResultSet :=
  { rs with h := fun t =>
      if t = tag then some (((rs.h tag).getD BenchResult.new).add_result du) else rs.h t }

/-- The number of samples recorded under a tag (`BenchResult::n` of its
store, `0` when the tag has no entry). -/
def ResultSet.count (rs : ResultSet) (tag : String) : Nat :=
  match rs.h tag with
  | some br => br.n
  | none => 0

/-- The session: an immutable label and the registry.  The
`Arc<RwLock<ResultSet>>` sharing is modelled by explicit state passing:
each lock-guarded critical section is one atomic step on the registry
state, and any concurrent execution is a sequence of such steps. -/
structure BenchMan where
  tag : String
  result_set : ResultSet

/-- `BenchMan::new`. -/
def BenchMan.new (tag : String) : BenchMan := ⟨tag, ResultSet.new⟩

/-- `Stopwatch`: the one-shot fuse `tag: Option<String>`.  The start instant
is not modelled; the elapsed time becomes an argument of `drop`. -/
structure Stopwatch where
  tag : Option String

/-- `Stopwatch::new`. -/
def Stopwatch.new (tag : String) : Stopwatch := ⟨some tag⟩

/-- `BenchMan::get_stopwatch`: reserves the tag under the write lock, then
returns the new timer (updated session state alongside). -/
def BenchMan.get_stopwatch (bm : BenchMan) (tag : String) : BenchMan × Stopwatch :=
  ({ bm with result_set := bm.result_set.reserve_tag tag }, Stopwatch.new tag)

/-- `impl Drop for Stopwatch`: `self.tag.take().unwrap()`, then
`add_result(tag, elapsed)` under the write lock.  On a timer that has
already reported, `unwrap` panics before touching the registry (`none`). -/
def Stopwatch.drop (sw : Stopwatch) (elapsed : Nat) (rs : ResultSet) :
    Option (Stopwatch × ResultSet) :=
  match sw.tag with
  | some t => some (⟨none⟩, rs.add_result t elapsed)
  | none => none

/-- The per-tag loop of `impl fmt::Display for BenchMan`: iterates the given
tags, skips tags without an entry, and for each recorded tag emits the
`"<tag> (<N> samples)"` line and the stats block, the block followed by the
extra newline appended by `writeln!(f, "{}", v)`.  Colouring (`.blue()`,
`.yellow()`) is modelled as the identity — the `colored` crate emits no
escape codes when the output is not a terminal. -/
def renderTags (rs : ResultSet) : List String → Option String
  | [] => some ""
  | t :: rest =>
    match rs.h t with
    | some v =>
      match v.render with
      | some s =>
        (renderTags rs rest).map (fun r =>
          t ++ " (" ++ Nat.repr v.n ++ " samples)\n" ++ s ++ "\n" ++ r)
      | none => none
    | none => renderTags rs rest

/-- `impl fmt::Display for BenchMan`: the session label line, then the tags
in reservation order. -/
def BenchMan.render (bm : BenchMan) : Option String :=
  (renderTags bm.result_set bm.result_set.tag_indices).map
    (fun r => bm.tag ++ "\n" ++ r)

/-- `IndexMap::insert`: replaces the value in place when the key is present,
appends otherwise. -/
def indexMapInsert : List (String × BenchResult) → String → BenchResult →
    List (String × BenchResult)
  | [], k, v => [(k, v)]
  | e :: rest, k, v => if e.1 = k then (k, v) :: rest else e :: indexMapInsert rest k v

/-- `BenchManSlice`: the session label and the cloned per-tag stores, in
request order. -/
structure BenchManSlice where
  bm_tag : String
  slices : List (String × BenchResult)

/-- `BenchMan::slice` (read lock): for each requested tag in the order
given, insert a clone of its store if an entry exists; absent tags are
silently skipped. -/
def BenchMan.slice (bm : BenchMan) (sw_tags : List String) : BenchManSlice :=
  { bm_tag := bm.tag
    slices := sw_tags.foldl (fun m t =>
      match bm.result_set.h t with
      | some br => indexMapInsert m t br
      | none => m) [] }

/-- The per-entry loop of `impl fmt::Display for BenchManSlice` (same block
shape as the full report). -/
def renderSlices : List (String × BenchResult) → Option String
  | [] => some ""
  | (t, br) :: rest =>
    match br.render with
    | some s =>
      (renderSlices rest).map (fun r =>
        t ++ " (" ++ Nat.repr br.n ++ " samples)\n" ++ s ++ "\n" ++ r)
    | none => none

/-- `impl fmt::Display for BenchManSlice`. -/
def BenchManSlice.render (sl : BenchManSlice) : Option String :=
  (renderSlices sl.slices).map (fun r => sl.bm_tag ++ "\n" ++ r)

/-! ### Serialised histories and reachable registry states -/

/-- A serialised registry operation: the write-lock critical section of a
`reserve_tag` (from `get_stopwatch`) or an `add_result` (from a `Stopwatch`
drop).  The single `RwLock` makes every concurrent execution equivalent to
some interleaving, i.e. some list of these. -/
inductive RegOp
  | reserve (tag : String)
  | record (tag : String) (du : Nat)

def applyOp (rs : ResultSet) : RegOp → ResultSet
  | .reserve t => rs.reserve_tag t
  | .record t du => rs.add_result t du

def applyOps (rs : ResultSet) (ops : List RegOp) : ResultSet :=
  ops.foldl applyOp rs

/-- Whether an operation records a sample for tag `t`. -/
def RegOp.isRecordFor (t : String) : RegOp → Bool
  | .record t2 _ => t2 == t
  | .reserve _ => false

/-- Registry states reachable through the public API. -/
inductive Reachable : ResultSet → Prop
  | new : Reachable ResultSet.new
  | reserve (rs : ResultSet) (t : String) : Reachable rs → Reachable (rs.reserve_tag t)
  | record (rs : ResultSet) (t : String) (du : Nat) :
      Reachable rs → Reachable (rs.add_result t du)

/-! ### The report format as written in the specification -/

/-- Modelled from the spec: the per-tag blocks of the textual report format
given in the specification — `"<tag> (<N> samples)"`, `"[ave.] <mean>"` and
the percentile line, each on its own line and nothing else. -/
def specRenderTags (rs : ResultSet) : List String → Option String
  | [] => some ""
  | t :: rest =>
    match rs.h t with
    | some v =>
      match v.percentile 50, v.percentile 95, v.percentile 99 with
      | some p50, some p95, some p99 =>
        match v.average with
        | some ave =>
          (specRenderTags rs rest).map (fun r =>
            t ++ " (" ++ Nat.repr v.n ++ " samples)\n" ++
            "[ave.] " ++ durationRepr ave ++ "\n" ++
            durationRepr p50 ++ " (>50%), " ++ durationRepr p95 ++ " (>95%), " ++
            durationRepr p99 ++ " (>99%)\n" ++ r)
        | none => none
      | _, _, _ => none
    | none => specRenderTags rs rest

/-- Modelled from the spec: the full textual report format of §6 — the
session label line, then the per-tag blocks, with no additional characters. -/
def specRender (bm : BenchMan) : Option String :=
  (specRenderTags bm.result_set bm.result_set.tag_indices).map
    (fun r => bm.tag ++ "\n" ++ r)

/-! ### Helper lemmas about counts -/

theorem count_reserve (rs : ResultSet) (t t2 : String) :
    (rs.reserve_tag t2).count t = rs.count t := rfl

theorem count_add_result (rs : ResultSet) (t t2 : String) (du : Nat) :
    (rs.add_result t2 du).count t = if t = t2 then rs.count t + 1 else rs.count t := by
  rw [ResultSet.count, ResultSet.add_result]
  simp only []
  by_cases h : t = t2
  · rw [if_pos h, if_pos h]
    subst h
    rw [ResultSet.count]
    cases hh : rs.h t
    · simp [hh, BenchResult.add_result, BenchResult.n, BenchResult.new]
    · simp [hh, BenchResult.add_result, BenchResult.n]
  · rw [if_neg h, if_neg h]
    rfl

theorem applyOps_count (ops : List RegOp) : ∀ (rs : ResultSet) (t : String),
    (applyOps rs ops).count t = rs.count t + (ops.filter (RegOp.isRecordFor t)).length := by
  induction ops with
  | nil => intro rs t; simp [applyOps]
  | cons op rest ih =>
    intro rs t
    rw [applyOps, List.foldl_cons]
    have hstep : rest.foldl applyOp (applyOp rs op) = applyOps (applyOp rs op) rest := rfl
    rw [hstep, ih]
    cases op with
    | reserve t2 =>
      rw [List.filter_cons]
      simp only [RegOp.isRecordFor, Bool.false_eq_true, if_neg]
      have : (applyOp rs (RegOp.reserve t2)).count t = rs.count t := count_reserve rs t t2
      rw [this]
      simp
    | record t2 du =>
      rw [List.filter_cons]
      have hcount : (applyOp rs (RegOp.record t2 du)).count t
          = if t = t2 then rs.count t + 1 else rs.count t := count_add_result rs t t2 du
      rw [hcount]
      by_cases h : t2 = t
      · have hb : RegOp.isRecordFor t (RegOp.record t2 du) = true := by
          simp [RegOp.isRecordFor, h]
        rw [if_pos hb, if_pos h.symm]
        simp only [List.length_cons]
        omega
      · have hb : ¬ RegOp.isRecordFor t (RegOp.record t2 du) = true := by
          simp [RegOp.isRecordFor, h]
        rw [if_neg hb, if_neg (fun hc => h hc.symm)]

/-! ### C2 — mean -/

/-- C2 (amended): `mean()` returns the sum of all recorded durations
divided by their count whenever `0 < count < 2^32`, independently of the
recording order, and it fails with a division/arithmetic error exactly when
the count is congruent to `0` modulo `2^32` — in particular when the count
is `0`, but, because `BenchResult::average` casts the `usize` count to
`u32`, also at counts `2^32`, `2·2^32`, …. -/
theorem average_eq (br : BenchResult) :
    br.average = if br.list.length % 2 ^ 32 = 0 then none
      else some (br.list.sum / (br.list.length % 2 ^ 32)) := rfl

theorem C2_amended_mean (br : BenchResult) (l2 : List Nat) :
    (br.average = none ↔ br.n % 2 ^ 32 = 0) ∧
    (0 < br.n → br.n < 2 ^ 32 → br.average = some (br.list.sum / br.n)) ∧
    (l2.Perm br.list → BenchResult.average ⟨l2⟩ = br.average) := by
  refine ⟨?_, ?_, ?_⟩
  · rw [average_eq]
    split
    · rename_i h
      exact iff_of_true rfl h
    · rename_i h
      exact iff_of_false (by simp) h
  · intro h1 h2
    have h1l : 0 < br.list.length := h1
    have h2l : br.list.length < 2 ^ 32 := h2
    rw [average_eq, Nat.mod_eq_of_lt h2l, if_neg (by omega)]
    rfl
  · intro hperm
    rw [average_eq, average_eq]
    simp only []
    rw [hperm.length_eq, hperm.sum_eq]

/-- C2 witness: a concrete two-sample store. -/
theorem C2_witness :
    (BenchResult.mk [2, 4]).average = some 3 ∧
    BenchResult.average ⟨[4, 2]⟩ = (BenchResult.mk [2, 4]).average := by
  have h := C2_amended_mean (BenchResult.mk [2, 4]) [4, 2]
  refine ⟨?_, h.2.2 (by decide)⟩
  have h2 := h.2.1 (by decide) (by decide)
  rw [h2]
  decide

/-- C2 counterexample: a store with `2^32` samples has a nonzero count, yet
`mean()` fails — the `usize → u32` cast of the count wraps to zero, so the
claim "fails exactly when the count is 0" is false on the code. -/
theorem C2_counterexample :
    (BenchResult.mk (List.replicate (2 ^ 32) 0)).n ≠ 0 ∧
    (BenchResult.mk (List.replicate (2 ^ 32) 0)).average = none := by
  have hlen : (BenchResult.mk (List.replicate (2 ^ 32) 0)).n = 2 ^ 32 :=
    List.length_replicate _ _
  constructor
  · omega
  · rw [average_eq]
    have hlen2 : (BenchResult.mk (List.replicate (2 ^ 32) 0)).list.length = 2 ^ 32 :=
      List.length_replicate _ _
    rw [hlen2, if_pos (by norm_num : (2 : Nat) ^ 32 % 2 ^ 32 = 0)]

/-! ### C3 — the timer reports exactly once -/

/-- C3: a timer obtained from `get_stopwatch` records exactly once: its drop
appends exactly one sample (its elapsed time) under its tag, leaves every
other tag untouched, disarms the one-shot fuse, and a timer that has
already reported fails on a second drop without recording anything. -/
theorem C3_stopwatch_reports_once (bm : BenchMan) (t : String) (e1 e2 : Nat)
    (rs rs2 : ResultSet) :
    ∃ sw2 rs3, ((bm.get_stopwatch t).2).drop e1 rs = some (sw2, rs3) ∧
      rs3.count t = rs.count t + 1 ∧
      rs3.h t = some ⟨((rs.h t).getD BenchResult.new).list ++ [e1]⟩ ∧
      (∀ t2, t2 ≠ t → rs3.h t2 = rs.h t2) ∧
      sw2.tag = none ∧
      sw2.drop e2 rs2 = none := by
  refine ⟨⟨none⟩, rs.add_result t e1, rfl, ?_, ?_, ?_, rfl, rfl⟩
  · rw [count_add_result, if_pos rfl]
  · rw [ResultSet.add_result]
    simp [BenchResult.add_result]
  · intro t2 hne
    rw [ResultSet.add_result]
    simp only []
    rw [if_neg hne]

/-! ### C6 — no lost or duplicated samples -/

/-- C6: with the registry lock serialising all writers, any interleaving of
timer drops is a list of atomic `record` operations; if the interleaving
contains exactly `N·M` records for tag `t` (N threads × M timers each,
arbitrarily interleaved with operations on other tags), the final count for
`t` is exactly `N·M` — no lost or duplicated samples. -/
theorem C6_concurrent_count (lbl t : String) (N M : Nat) (ops : List RegOp)
    (hops : (ops.filter (RegOp.isRecordFor t)).length = N * M) :
    (applyOps (BenchMan.new lbl).result_set ops).count t = N * M := by
  rw [applyOps_count]
  have h0 : (BenchMan.new lbl).result_set.count t = 0 := rfl
  rw [h0, hops]
  omega

/-- C6 witness: 2 threads × 3 timers for `"a"`, interleaved with a
reservation and a record for another tag. -/
theorem C6_witness :
    (applyOps (BenchMan.new "s").result_set
      [RegOp.reserve "a", RegOp.record "a" 1, RegOp.record "b" 7, RegOp.record "a" 2,
       RegOp.record "a" 3, RegOp.record "a" 4, RegOp.reserve "b", RegOp.record "a" 5,
       RegOp.record "a" 6]).count "a" = 2 * 3 :=
  C6_concurrent_count "s" "a" 2 3 _ (by decide)

/-! ### C10 — percentile above 100 -/

/-- C10: the `assert!(p > 0)` in `percentile` only enforces the lower bound;
for every non-empty store and `p > 100` the computed index exceeds `n`, and
the call fails with an out-of-bounds access; `p = 0` is rejected by the
assertion. -/
theorem C10_percentile_above_100 (br : BenchResult) (p : Nat) (hp : 101 ≤ p)
    (hne : br.list ≠ []) :
    br.n < percIndex p br.n ∧ br.percentile p = none ∧ br.percentile 0 = none := by
  have hn : 0 < br.list.length := List.length_pos.mpr hne
  have hgt : br.list.length < percIndex p br.list.length :=
    percIndex_gt_of_gt100 p br.list.length hp hn
  refine ⟨hgt, ?_, by rw [BenchResult.percentile, if_pos rfl]⟩
  rw [BenchResult.percentile, if_neg (by omega)]
  simp only []
  rw [if_neg (by omega)]
  apply List.getElem?_eq_none
  have hlen : (List.insertionSort (· ≤ ·) br.list).length = br.list.length :=
    (List.perm_insertionSort (· ≤ ·) br.list).length_eq
  omega

/-- C10 witness: `percentile(200)` on a two-sample store. -/
theorem C10_witness :
    (BenchResult.mk [1, 2]).n < percIndex 200 (BenchResult.mk [1, 2]).n ∧
    (BenchResult.mk [1, 2]).percentile 200 = none ∧
    (BenchResult.mk [1, 2]).percentile 0 = none :=
  C10_percentile_above_100 ⟨[1, 2]⟩ 200 (by decide) (by decide)

/-! ### C1 — percentile rank semantics -/

/-- C1 (amended): for `0 < p ≤ 100` on a non-empty store of `n ≤ 2^44`
samples, `percentile(p)` succeeds, leaves the store untouched (it is a pure
function of the store), and returns the element at a 1-based position `i`
of the ascending sorted copy, where `i` is the binary64 evaluation of
`ceil(p/100·n)`: always `⌈p·n/100⌉ ≤ i ≤ ⌈p·n/100⌉ + 1` and `i ≤ n`, with
`i = ⌈p·n/100⌉ = (p·n+99)/100` whenever `p·n` is not a multiple of `100`,
always `i = ⌈p·n/100⌉` for the renderer's ranks `p ∈ {50, 95, 99}` (their
ratios round down in binary64, so the index never overshoots), and
`i = n` at `p = 100`.  At some multiples-of-100 boundary pairs the
float computation overshoots the exact rank by one (`C1_counterexample`),
so the claim's "position `⌈p/100·n⌉`" does not always hold. -/
theorem C1_amended_percentile_rank (br : BenchResult) (p : Nat) (hp : 0 < p)
    (h100 : p ≤ 100) (hne : br.list ≠ []) (hb : br.n ≤ 2 ^ 44) :
    ∃ i, (p * br.n + 99) / 100 ≤ i ∧ i ≤ (p * br.n + 99) / 100 + 1 ∧
      1 ≤ i ∧ i ≤ br.n ∧
      (¬ (100 ∣ p * br.n) → i = (p * br.n + 99) / 100) ∧
      (p = 50 ∨ p = 95 ∨ p = 99 → i = (p * br.n + 99) / 100) ∧
      (p = 100 → i = br.n) ∧
      (br.percentile p).isSome ∧
      ∀ l2 : List Nat, l2.Perm br.list → l2.Sorted (· ≤ ·) →
        br.percentile p = l2[i - 1]? := by
  have hn : 0 < br.list.length := List.length_pos.mpr hne
  have hbl : br.list.length ≤ 2 ^ 44 := hb
  obtain ⟨h1, h2, h3, h4⟩ := percIndex_close p br.list.length hp h100 hn hbl
  have hpos := percIndex_pos p br.list.length hp hn
  obtain ⟨hget, hsome⟩ := percentile_spec br p hp hpos h3
  refine ⟨percIndex p br.list.length, h1, h2, hpos, h3, h4, ?_, ?_, hsome, hget⟩
  · intro hmem
    exact percIndex_exact_of_round_down p br.list.length hp h100 hn hbl
      (RNQ_renderer_down p hmem)
  · intro hp100
    subst hp100
    exact percIndex_100 br.list.length hn (by omega)

/-- C1 witness: four samples, `p = 30` (rank `⌈1.2⌉ = 2`, second
smallest), and `p = 50` at the divisibility boundary `p·n = 200`
(exact rank `2`, pinned by the renderer-ranks conjunct). -/
theorem C1_witness :
    BenchResult.percentile ⟨[5, 3, 4, 1]⟩ 30 = some 3 ∧
    BenchResult.percentile ⟨[5, 3, 4, 1]⟩ 50 = some 3 := by
  constructor
  · obtain ⟨i, h1, h2, h3, h4, h5, h5r, h6, h7, h8⟩ :=
      C1_amended_percentile_rank ⟨[5, 3, 4, 1]⟩ 30 (by decide) (by decide) (by decide) (by decide)
    have hi : i = 2 := by
      have := h5 (by decide)
      rw [this]
      decide
    rw [h8 [1, 3, 4, 5] (by decide) (by decide), hi]
    decide
  · obtain ⟨i, h1, h2, h3, h4, h5, h5r, h6, h7, h8⟩ :=
      C1_amended_percentile_rank ⟨[5, 3, 4, 1]⟩ 50 (by decide) (by decide) (by decide) (by decide)
    have hi : i = 2 := by
      have := h5r (by decide)
      rw [this]
      decide
    rw [h8 [1, 3, 4, 5] (by decide) (by decide), hi]
    decide

/-- C1 counterexample: with the 100 samples `1, …, 100` and `p = 7`, the
exact rank is `⌈7·100/100⌉ = 7` and the sorted list's 7th element is `7`,
but `0.07` is not a binary64 value: `ceil(7 as f64 / 100. * 100 as f64)`
evaluates to `8`, so `percentile(7)` returns the 8th-smallest element `8`,
not the element at position `⌈p/100·n⌉`. -/
theorem C1_counterexample :
    BenchResult.percentile ⟨(List.range 100).map (fun k => k + 1)⟩ 7 = some 8 ∧
    ((List.range 100).map (fun k => k + 1)).Sorted (· ≤ ·) ∧
    ((List.range 100).map (fun k => k + 1))[(7 * 100 + 99) / 100 - 1]? = some 7 ∧
    (8 : Nat) ≠ 7 :=
  ⟨by decide, by decide, by decide, by decide⟩

/-! ### C8 — registry invariant -/

theorem percentile_isSome_small (br : BenchResult) (p : Nat) (hp : 0 < p) (h99 : p ≤ 99)
    (hne : br.list ≠ []) : (br.percentile p).isSome := by
  have hn : 0 < br.list.length := List.length_pos.mpr hne
  exact (percentile_spec br p hp (percIndex_pos p _ hp hn) (percIndex_le_n p _ hp h99 hn)).2

/-- C8: in every reachable registry state, every tag present in the mapping
holds at least one sample — an entry is only created by `add_result`, which
immediately appends — and consequently the statistics the report renderer
evaluates on rendered stores (`percentile(50/95/99)`) never see an empty
store and always succeed. -/
theorem C8_registry_invariant (rs : ResultSet) (hr : Reachable rs) :
    ∀ t br, rs.h t = some br →
      1 ≤ br.n ∧ br.list ≠ [] ∧
      (br.percentile 50).isSome ∧ (br.percentile 95).isSome ∧
      (br.percentile 99).isSome := by
  have hinv : ∀ t br, rs.h t = some br → br.list ≠ [] := by
    induction hr with
    | new =>
      intro t br h
      exact absurd h (by simp [ResultSet.new])
    | reserve rs2 t2 hr2 ih =>
      intro t br h
      exact ih t br h
    | record rs2 t2 du hr2 ih =>
      intro t br h
      rw [ResultSet.add_result] at h
      simp only [] at h
      by_cases he : t = t2
      · rw [if_pos he] at h
        injection h with h
        rw [← h, BenchResult.add_result]
        simp
      · rw [if_neg he] at h
        exact ih t br h
  intro t br h
  have hne := hinv t br h
  have hn : 0 < br.list.length := List.length_pos.mpr hne
  exact ⟨hn, hne, percentile_isSome_small br 50 (by norm_num) (by norm_num) hne,
    percentile_isSome_small br 95 (by norm_num) (by norm_num) hne,
    percentile_isSome_small br 99 (by norm_num) (by norm_num) hne⟩

/-- C8 witness: the state reached by one recording. -/
theorem C8_witness :
    1 ≤ (BenchResult.mk [5]).n ∧ (BenchResult.mk [5]).list ≠ [] ∧
    ((BenchResult.mk [5]).percentile 50).isSome ∧
    ((BenchResult.mk [5]).percentile 95).isSome ∧
    ((BenchResult.mk [5]).percentile 99).isSome :=
  C8_registry_invariant (ResultSet.new.add_result "a" 5)
    (Reachable.record ResultSet.new "a" 5 Reachable.new) "a" ⟨[5]⟩ (by decide)

/-! ### C7 — slicing -/

/-- A named form of the fold body of `BenchMan::slice`. -/
def sliceStep (h : String → Option BenchResult) (m : List (String × BenchResult))
    (tg : String) : List (String × BenchResult) :=
  match h tg with
  | some b => indexMapInsert m tg b
  | none => m

theorem sliceStep_some (h : String → Option BenchResult) (m : List (String × BenchResult))
    (tg : String) (b : BenchResult) (hh : h tg = some b) :
    sliceStep h m tg = indexMapInsert m tg b := by
  simp only [sliceStep]
  rw [hh]

theorem sliceStep_none (h : String → Option BenchResult) (m : List (String × BenchResult))
    (tg : String) (hh : h tg = none) : sliceStep h m tg = m := by
  simp only [sliceStep]
  rw [hh]

theorem indexMapInsert_mem_of_consistent (k : String) (v : BenchResult) :
    ∀ (m : List (String × BenchResult)),
      (∀ e, e ∈ m → e.1 = k → e.2 = v) →
      ∀ e, e ∈ indexMapInsert m k v ↔ (e ∈ m ∨ e = (k, v)) := by
  intro m
  induction m with
  | nil =>
    intro hcons e
    simp [indexMapInsert]
  | cons hd rest ih =>
    intro hcons e
    rw [indexMapInsert]
    by_cases hh : hd.1 = k
    · rw [if_pos hh]
      have hhd : hd = (k, v) := by
        have h2 := hcons hd (by simp) hh
        obtain ⟨a, b⟩ := hd
        simp only [] at hh h2
        rw [hh, h2]
      rw [hhd]
      simp only [List.mem_cons]
      tauto
    · rw [if_neg hh]
      have ih2 := ih (fun e2 he2 hk2 => hcons e2 (List.mem_cons.mpr (Or.inr he2)) hk2) e
      simp only [List.mem_cons] at ih2 ⊢
      tauto

theorem indexMapInsert_append (k : String) (v : BenchResult) :
    ∀ (m : List (String × BenchResult)), (∀ e, e ∈ m → e.1 ≠ k) →
      indexMapInsert m k v = m ++ [(k, v)] := by
  intro m
  induction m with
  | nil =>
    intro h
    rfl
  | cons hd rest ih =>
    intro h
    rw [indexMapInsert, if_neg (h hd (by simp)), ih (fun e he => h e (by simp [he]))]
    rfl

theorem sliceFold_mem (h : String → Option BenchResult) :
    ∀ (tags : List String) (acc : List (String × BenchResult)),
      (∀ e, e ∈ acc → h e.1 = some e.2) →
      ∀ t br,
        ((t, br) ∈ tags.foldl (sliceStep h) acc
          ↔ ((t, br) ∈ acc ∨ (t ∈ tags ∧ h t = some br))) := by
  intro tags
  induction tags with
  | nil =>
    intro acc hsound t br
    simp
  | cons tg rest ih =>
    intro acc hsound t br
    rw [List.foldl_cons]
    cases hh : h tg with
    | none =>
      rw [sliceStep_none h acc tg hh, ih acc hsound t br]
      simp only [List.mem_cons]
      constructor
      · intro hc
        rcases hc with hc | ⟨hmem, hval⟩
        · exact Or.inl hc
        · exact Or.inr ⟨Or.inr hmem, hval⟩
      · intro hc
        rcases hc with hc | ⟨hmem, hval⟩
        · exact Or.inl hc
        · rcases hmem with rfl | hmem
          · rw [hval] at hh
            exact absurd hh (by simp)
          · exact Or.inr ⟨hmem, hval⟩
    | some b =>
      rw [sliceStep_some h acc tg b hh]
      have hsound2 : ∀ e, e ∈ indexMapInsert acc tg b → h e.1 = some e.2 := by
        intro e he
        have hcons : ∀ e2, e2 ∈ acc → e2.1 = tg → e2.2 = b := by
          intro e2 he2 hk2
          have := hsound e2 he2
          rw [hk2, hh] at this
          injection this with h3
          exact h3.symm
        rcases (indexMapInsert_mem_of_consistent tg b acc hcons e).mp he with h2 | h2
        · exact hsound e h2
        · rw [h2, hh]
      rw [ih (indexMapInsert acc tg b) hsound2 t br]
      have hcons : ∀ e2, e2 ∈ acc → e2.1 = tg → e2.2 = b := by
        intro e2 he2 hk2
        have := hsound e2 he2
        rw [hk2, hh] at this
        injection this with h3
        exact h3.symm
      rw [indexMapInsert_mem_of_consistent tg b acc hcons (t, br)]
      simp only [List.mem_cons, Prod.mk.injEq]
      constructor
      · intro hc
        rcases hc with (hc | ⟨rfl, rfl⟩) | ⟨hmem, hval⟩
        · exact Or.inl hc
        · exact Or.inr ⟨Or.inl rfl, hh⟩
        · exact Or.inr ⟨Or.inr hmem, hval⟩
      · intro hc
        rcases hc with hc | ⟨hmem, hval⟩
        · exact Or.inl (Or.inl hc)
        · rcases hmem with rfl | hmem
          · rw [hval] at hh
            injection hh with h3
            exact Or.inl (Or.inr ⟨rfl, h3⟩)
          · exact Or.inr ⟨hmem, hval⟩

theorem sliceFold_filterMap (h : String → Option BenchResult) :
    ∀ (tags : List String), tags.Nodup →
      ∀ (acc : List (String × BenchResult)), (∀ e, e ∈ acc → e.1 ∉ tags) →
      tags.foldl (sliceStep h) acc
        = acc ++ tags.filterMap (fun t => (h t).map (fun b => (t, b))) := by
  intro tags
  induction tags with
  | nil =>
    intro _ acc _
    rw [List.foldl_nil, List.filterMap_nil, List.append_nil]
  | cons tg rest ih =>
    intro hnd acc hdisj
    rw [List.foldl_cons, List.filterMap_cons]
    cases hh : h tg with
    | none =>
      rw [sliceStep_none h acc tg hh]
      exact ih hnd.of_cons acc
        (fun e he => fun hin => hdisj e he (List.mem_cons.mpr (Or.inr hin)))
    | some b =>
      rw [sliceStep_some h acc tg b hh]
      rw [indexMapInsert_append tg b acc
        (fun e he => fun heq => hdisj e he (by rw [heq]; exact List.mem_cons_self tg rest))]
      have hdisj2 : ∀ e, e ∈ acc ++ [(tg, b)] → e.1 ∉ rest := by
        intro e he hin
        rcases List.mem_append.mp he with h2 | h2
        · exact hdisj e h2 (List.mem_cons.mpr (Or.inr hin))
        · have heq : e = (tg, b) := by simpa using h2
          rw [heq] at hin
          exact (List.nodup_cons.mp hnd).1 (by simpa using hin)
      rw [ih hnd.of_cons (acc ++ [(tg, b)]) hdisj2]
      simp [List.append_assoc]

/-- C7: `slice` builds a view that keeps the session label and contains,
for each requested tag in the order given, a copy of that tag's store if an
entry exists, silently omitting absent tags; membership in the view is
exactly "requested and present".  (The embedding of `slice` is a pure
function of the registry — it returns no modified registry, so the registry
is never mutated.) -/
theorem C7_slice (bm : BenchMan) (tags : List String) :
    (bm.slice tags).bm_tag = bm.tag ∧
    (∀ t br, (t, br) ∈ (bm.slice tags).slices ↔
      (t ∈ tags ∧ bm.result_set.h t = some br)) ∧
    (tags.Nodup → (bm.slice tags).slices
      = tags.filterMap (fun t => (bm.result_set.h t).map (fun b => (t, b)))) := by
  have hfold : (bm.slice tags).slices = tags.foldl (sliceStep bm.result_set.h) [] := rfl
  refine ⟨rfl, ?_, ?_⟩
  · intro t br
    rw [hfold, sliceFold_mem bm.result_set.h tags [] (by simp) t br]
    simp
  · intro hnd
    rw [hfold, sliceFold_filterMap bm.result_set.h tags hnd [] (by simp)]
    simp

/-- C7 witness: a registry holding only `"a"`; the request `["a", "zz"]`
keeps `"a"` and silently omits `"zz"`. -/
theorem C7_witness :
    ((BenchMan.mk "S" ⟨["a"], fun t => if t = "a" then some ⟨[1]⟩ else none⟩).slice
        ["a", "zz"]).slices = [("a", ⟨[1]⟩)] := by
  have h := (C7_slice
    (BenchMan.mk "S" ⟨["a"], fun t => if t = "a" then some ⟨[1]⟩ else none⟩)
    ["a", "zz"]).2.2 (by decide)
  rw [h]
  decide

/-! ### C9 — maximum and monotonicity -/

/-- C9 (amended): on a non-empty store with fewer than `2^53` samples,
`percentile(100)` returns the maximum recorded value, and `percentile` is
monotone non-decreasing in `p` over `(0, 100]`.  (Beyond `2^53` samples the
`n as f64` conversion rounds the count and the property fails —
`C9_counterexample`.) -/
theorem C9_amended_max_mono (br : BenchResult) (p1 p2 : Nat) (hne : br.list ≠ [])
    (h53 : br.n < 2 ^ 53) :
    (∃ m, br.percentile 100 = some m ∧ m ∈ br.list ∧ ∀ x ∈ br.list, x ≤ m) ∧
    (0 < p1 → p1 ≤ p2 → p2 ≤ 100 →
      ∃ v1 v2, br.percentile p1 = some v1 ∧ br.percentile p2 = some v2 ∧ v1 ≤ v2) := by
  have hn : 0 < br.list.length := List.length_pos.mpr hne
  have hsorted := List.sorted_insertionSort (· ≤ ·) br.list
  have hperm := List.perm_insertionSort (· ≤ ·) br.list
  have hlen : (List.insertionSort (· ≤ ·) br.list).length = br.list.length := hperm.length_eq
  have hle_n : ∀ p : Nat, 0 < p → p ≤ 100 → percIndex p br.list.length ≤ br.list.length := by
    intro p hp hple
    rcases Nat.lt_or_ge p 100 with hcase | hcase
    · exact percIndex_le_n p br.list.length hp (by omega) hn
    · have hp100 : p = 100 := by omega
      rw [hp100, percIndex_100 br.list.length hn h53]
  constructor
  · have hi := percIndex_100 br.list.length hn h53
    have hpos : 1 ≤ percIndex 100 br.list.length := percIndex_pos 100 br.list.length (by norm_num) hn
    obtain ⟨hget, hsome⟩ := percentile_spec br 100 (by norm_num)
      hpos (hle_n 100 (by norm_num) (le_refl 100))
    have heq := hget (List.insertionSort (· ≤ ·) br.list) hperm hsorted
    have hidx : percIndex 100 br.list.length - 1 < (List.insertionSort (· ≤ ·) br.list).length := by
      omega
    rw [List.getElem?_eq_getElem hidx] at heq
    refine ⟨(List.insertionSort (· ≤ ·) br.list).get ⟨percIndex 100 br.list.length - 1, hidx⟩,
      by rw [heq]; rfl, ?_, ?_⟩
    · exact hperm.mem_iff.mp (List.get_mem _ _ _)
    · intro x hx
      obtain ⟨j, hj⟩ := List.mem_iff_get.mp (hperm.mem_iff.mpr hx)
      rw [← hj]
      apply hsorted.rel_get_of_le
      have hjlt : (j : Nat) < br.list.length := by
        have := j.isLt
        omega
      show (j : Nat) ≤ percIndex 100 br.list.length - 1
      omega
  · intro hp1 h12 hp2
    have hp2pos : 0 < p2 := by omega
    have hi1pos := percIndex_pos p1 br.list.length hp1 hn
    have hi2pos := percIndex_pos p2 br.list.length hp2pos hn
    have hi2n := hle_n p2 hp2pos hp2
    have hmono := percIndex_mono p1 p2 br.list.length hp1 h12 hn
    have hi1n : percIndex p1 br.list.length ≤ br.list.length := le_trans hmono hi2n
    obtain ⟨hget1, hsome1⟩ := percentile_spec br p1 hp1 hi1pos hi1n
    obtain ⟨hget2, hsome2⟩ := percentile_spec br p2 hp2pos hi2pos hi2n
    have heq1 := hget1 (List.insertionSort (· ≤ ·) br.list) hperm hsorted
    have heq2 := hget2 (List.insertionSort (· ≤ ·) br.list) hperm hsorted
    have hidx1 : percIndex p1 br.list.length - 1 < (List.insertionSort (· ≤ ·) br.list).length := by
      omega
    have hidx2 : percIndex p2 br.list.length - 1 < (List.insertionSort (· ≤ ·) br.list).length := by
      omega
    rw [List.getElem?_eq_getElem hidx1] at heq1
    rw [List.getElem?_eq_getElem hidx2] at heq2
    refine ⟨(List.insertionSort (· ≤ ·) br.list).get
        ⟨percIndex p1 br.list.length - 1, hidx1⟩,
      (List.insertionSort (· ≤ ·) br.list).get ⟨percIndex p2 br.list.length - 1, hidx2⟩,
      by rw [heq1]; rfl, by rw [heq2]; rfl, ?_⟩
    apply hsorted.rel_get_of_le
    show percIndex p1 br.list.length - 1 ≤ percIndex p2 br.list.length - 1
    omega

/-- C9 witness: `percentile(100)` of `[2,7,5]` is `7`, and `percentile(50)`
succeeds below it. -/
theorem C9_witness :
    BenchResult.percentile ⟨[2, 7, 5]⟩ 100 = some 7 ∧
    (BenchResult.percentile ⟨[2, 7, 5]⟩ 50).isSome = true := by
  obtain ⟨⟨m, hm, hmem, hub⟩, h2⟩ :=
    C9_amended_max_mono ⟨[2, 7, 5]⟩ 50 95 (by decide) (by decide)
  obtain ⟨v1, v2, hv1, hv2, hle⟩ := h2 (by decide) (by decide) (by decide)
  constructor
  · have h7 : m = 7 := by
      have hm7 : 7 ≤ m := hub 7 (by decide)
      have hcases : m = 2 ∨ m = 7 ∨ m = 5 := by simpa using hmem
      omega
    rw [hm, h7]
  · rw [hv1]
    rfl

/-- C9 counterexample: on a store of `2^53` zeros followed by a single `1`
(count `2^53 + 1`), the conversion `n as f64` rounds the count down to
`2^53` (round-to-nearest, ties-to-even), so `percentile(100)` indexes
1-based position `2^53` of the sorted copy and returns `0` — not the
maximum `1` that the claim promises for every non-empty store. -/
theorem C9_counterexample :
    BenchResult.percentile ⟨List.replicate (2 ^ 53) 0 ++ [1]⟩ 100 = some 0 ∧
    (1 : Nat) ∈ (List.replicate (2 ^ 53) (0 : Nat) ++ [1]) ∧
    (∀ x ∈ (List.replicate (2 ^ 53) (0 : Nat) ++ [1]), x ≤ 1) ∧
    (0 : Nat) ≠ 1 := by
  have hsorted : (List.replicate (2 ^ 53) (0 : Nat) ++ [1]).Sorted (· ≤ ·) := by
    rw [List.Sorted, List.pairwise_append]
    refine ⟨?_, ?_, ?_⟩
    · rw [List.pairwise_replicate]
      omega
    · simp
    · intro a ha b hb
      have ha0 := List.eq_of_mem_replicate ha
      omega
  have hlen : (List.replicate ((2 : Nat) ^ 53) (0 : Nat) ++ [1]).length = 2 ^ 53 + 1 := by
    rw [List.length_append, List.length_replicate]
    rfl
  have hins : List.insertionSort (· ≤ ·) (List.replicate (2 ^ 53) (0 : Nat) ++ [1])
      = List.replicate (2 ^ 53) 0 ++ [1] := hsorted.insertionSort_eq
  have hpi : percIndex 100 (2 ^ 53 + 1) = 2 ^ 53 := by decide
  refine ⟨?_, List.mem_append.mpr (Or.inr (List.mem_singleton.mpr rfl)), ?_, by decide⟩
  · have hl2 : (BenchResult.mk (List.replicate (2 ^ 53) (0 : Nat) ++ [1])).list.length
        = 2 ^ 53 + 1 := hlen
    have hb1 : 1 ≤ percIndex 100
        (BenchResult.mk (List.replicate (2 ^ 53) (0 : Nat) ++ [1])).list.length := by
      rw [hl2, hpi]
      norm_num
    have hb2 : percIndex 100
          (BenchResult.mk (List.replicate (2 ^ 53) (0 : Nat) ++ [1])).list.length
        ≤ (BenchResult.mk (List.replicate (2 ^ 53) (0 : Nat) ++ [1])).list.length := by
      rw [hl2, hpi]
      omega
    obtain ⟨hget, hsome⟩ := percentile_spec ⟨List.replicate (2 ^ 53) (0 : Nat) ++ [1]⟩ 100
      (by norm_num) hb1 hb2
    have heq := hget (List.replicate (2 ^ 53) (0 : Nat) ++ [1]) (List.Perm.refl _) hsorted
    rw [hl2, hpi] at heq
    rw [heq]
    have hidx : (2 : Nat) ^ 53 - 1 < (List.replicate ((2 : Nat) ^ 53) (0 : Nat)).length := by
      rw [List.length_replicate]
      have : (0 : Nat) < 2 ^ 53 := by positivity
      omega
    rw [List.getElem?_append_left hidx, List.getElem?_eq_getElem hidx]
    rw [List.getElem_replicate]
  · intro x hx
    rcases List.mem_append.mp hx with h2 | h2
    · have := List.eq_of_mem_replicate h2
      omega
    · have : x = 1 := by simpa using h2
      omega

/-! ### C4 — report iteration order and skipped tags -/

theorem renderTags_congr_h (rs1 rs2 : ResultSet) (hh : ∀ t, rs1.h t = rs2.h t) :
    ∀ l, renderTags rs1 l = renderTags rs2 l := by
  intro l
  induction l with
  | nil => rfl
  | cons t rest ih =>
    rw [renderTags, renderTags, hh t, ih]

theorem renderTags_append (rs : ResultSet) (l1 l2 : List String) :
    renderTags rs (l1 ++ l2)
      = (renderTags rs l1).bind
          (fun s1 => (renderTags rs l2).map (fun s2 => s1 ++ s2)) := by
  induction l1 with
  | nil =>
    rw [List.nil_append]
    cases hcase : renderTags rs l2 with
    | none => rfl
    | some s =>
      show some s = some ("" ++ s)
      simp
  | cons t1 rest ih =>
    rw [List.cons_append, renderTags, renderTags]
    cases hh : rs.h t1 with
    | none => exact ih
    | some v =>
      dsimp only
      cases hv : v.render with
      | none => rfl
      | some s =>
        dsimp only
        rw [ih]
        cases h1 : renderTags rs rest with
        | none => rfl
        | some s1 =>
          cases h2 : renderTags rs l2 with
          | none => rfl
          | some s2 =>
            show some (t1 ++ " (" ++ Nat.repr v.n ++ " samples)\n" ++ s ++ "\n" ++ (s1 ++ s2))
              = some ((t1 ++ " (" ++ Nat.repr v.n ++ " samples)\n" ++ s ++ "\n" ++ s1) ++ s2)
            simp [String.append_assoc]

/-- C4: the full report iterates tags in reservation order and skips
reserved-but-unrecorded tags: rendering is sequential in the tag-set order
(the output for `l1 ++ l2` is the output for `l1` followed by the output
for `l2`); recording operations never change the reservation order; and a
tag reserved via `get_stopwatch`, with no entry yet (its timer has not
dropped), leaves the rendered report unchanged — it is absent from the
output. -/
theorem C4_render_order (bm : BenchMan) (t : String) :
    (∀ l1 l2, renderTags bm.result_set (l1 ++ l2)
      = (renderTags bm.result_set l1).bind
          (fun s1 => (renderTags bm.result_set l2).map (fun s2 => s1 ++ s2))) ∧
    (∀ (rs : ResultSet) (ops : List RegOp),
      (∀ op ∈ ops, ∃ t2 du, op = RegOp.record t2 du) →
      (applyOps rs ops).tag_indices = rs.tag_indices) ∧
    (bm.result_set.h t = none → ((bm.get_stopwatch t).1).render = bm.render) := by
  refine ⟨renderTags_append bm.result_set, ?_, ?_⟩
  · intro rs ops
    induction ops generalizing rs with
    | nil =>
      intro _
      rfl
    | cons op rest ih =>
      intro hops
      obtain ⟨t2, du, rfl⟩ := hops op (List.mem_cons_self op rest)
      have hstep : applyOps rs (RegOp.record t2 du :: rest)
          = applyOps (rs.add_result t2 du) rest := rfl
      rw [hstep, ih (rs.add_result t2 du)
        (fun op2 h2 => hops op2 (List.mem_cons.mpr (Or.inr h2)))]
      rfl
  · intro hnone
    rw [BenchMan.render, BenchMan.render]
    have hh : ∀ t2, ((bm.get_stopwatch t).1).result_set.h t2 = bm.result_set.h t2 :=
      fun _ => rfl
    have htags : ((bm.get_stopwatch t).1).result_set.tag_indices
        = if t ∈ bm.result_set.tag_indices then bm.result_set.tag_indices
          else bm.result_set.tag_indices ++ [t] := rfl
    have hcongr := renderTags_congr_h ((bm.get_stopwatch t).1).result_set bm.result_set hh
    by_cases hmem : t ∈ bm.result_set.tag_indices
    · rw [hcongr, htags, if_pos hmem]
      rfl
    · rw [hcongr, htags, if_neg hmem, renderTags_append]
      have hsingle : renderTags bm.result_set [t] = some "" := by
        rw [renderTags, hnone]
        rfl
      rw [hsingle]
      cases hrest : renderTags bm.result_set bm.result_set.tag_indices with
      | none => rfl
      | some s =>
        show some ((bm.get_stopwatch t).1.tag ++ "\n" ++ (s ++ ""))
          = some (bm.tag ++ "\n" ++ s)
        simp
        rfl

/-- C4 witness: reserving the fresh tag `"b"` does not change the
rendered report. -/
theorem C4_witness :
    (((BenchMan.mk "S" ⟨["a"], fun t => if t = "a" then some ⟨[2]⟩ else none⟩).get_stopwatch
        "b").1).render
      = (BenchMan.mk "S" ⟨["a"], fun t => if t = "a" then some ⟨[2]⟩ else none⟩).render :=
  (C4_render_order (BenchMan.mk "S" ⟨["a"], fun t => if t = "a" then some ⟨[2]⟩ else none⟩)
    "b").2.2 (by decide)

/-! ### C5 — the exact textual format -/

/-- Modelled from the amended claim: the spec's per-tag blocks, each
followed by one extra blank line (the newline appended by
`writeln!(f, "{}", v)` after the stats block's own final newline). -/
def specRenderTagsAmended (rs : ResultSet) : List String → Option String
  | [] => some ""
  | t :: rest =>
    match rs.h t with
    | some v =>
      match v.percentile 50, v.percentile 95, v.percentile 99 with
      | some p50, some p95, some p99 =>
        match v.average with
        | some ave =>
          (specRenderTagsAmended rs rest).map (fun r =>
            t ++ " (" ++ Nat.repr v.n ++ " samples)\n" ++
            ("[ave.] " ++ durationRepr ave ++ "\n" ++
              durationRepr p50 ++ " (>50%), " ++ durationRepr p95 ++ " (>95%), " ++
              durationRepr p99 ++ " (>99%)\n") ++ "\n" ++ r)
        | none => none
      | _, _, _ => none
    | none => specRenderTagsAmended rs rest

/-- Modelled from the amended claim: label line, then the per-tag blocks,
each followed by a blank line. -/
def specRenderAmended (bm : BenchMan) : Option String :=
  (specRenderTagsAmended bm.result_set bm.result_set.tag_indices).map
    (fun r => bm.tag ++ "\n" ++ r)

theorem renderTags_eq_amended (rs : ResultSet) :
    ∀ l, renderTags rs l = specRenderTagsAmended rs l := by
  intro l
  induction l with
  | nil => rfl
  | cons t rest ih =>
    rw [renderTags, specRenderTagsAmended]
    cases hh : rs.h t with
    | none => exact ih
    | some v =>
      dsimp only
      rw [BenchResult.render]
      cases h50 : v.percentile 50 with
      | none => rfl
      | some p50 =>
        try dsimp only
        cases h95 : v.percentile 95 with
        | none => rfl
        | some p95 =>
          try dsimp only
          cases h99 : v.percentile 99 with
          | none => rfl
          | some p99 =>
            try dsimp only
            cases hav : v.average with
            | none => rfl
            | some ave =>
              try dsimp only
              rw [ih]
              cases hrest : specRenderTagsAmended rs rest with
              | none => rfl
              | some r =>
                simp [String.append_assoc]

/-- C5 (amended): the rendered report is exactly the session label on its
own line, then for each recorded tag (in reservation order) the line
`"<tag> (<N> samples)"`, the line `"[ave.] <mean>"` and the percentile
line, each tag's block followed by one blank line — the `writeln!` that
prints the already-newline-terminated stats block appends an extra
newline not present in the spec's format. -/
theorem C5_amended_format (bm : BenchMan) : bm.render = specRenderAmended bm := by
  rw [BenchMan.render, specRenderAmended, renderTags_eq_amended]

/-- C5 counterexample: a one-tag, one-sample session; the code's output has
a trailing blank line after the percentile line, the spec's exact format
does not, so the claim "reproduced exactly, with no additional characters"
fails. -/
theorem C5_counterexample :
    BenchMan.render ⟨"S", ⟨["a"], fun t => if t = "a" then some ⟨[1]⟩ else none⟩⟩
      = some "S\na (1 samples)\n[ave.] 1ns\n1ns (>50%), 1ns (>95%), 1ns (>99%)\n\n" ∧
    specRender ⟨"S", ⟨["a"], fun t => if t = "a" then some ⟨[1]⟩ else none⟩⟩
      = some "S\na (1 samples)\n[ave.] 1ns\n1ns (>50%), 1ns (>95%), 1ns (>99%)\n" ∧
    BenchMan.render ⟨"S", ⟨["a"], fun t => if t = "a" then some ⟨[1]⟩ else none⟩⟩
      ≠ specRender ⟨"S", ⟨["a"], fun t => if t = "a" then some ⟨[1]⟩ else none⟩⟩ :=
  ⟨by decide, by decide, by decide⟩

end Benchman
